import Mathlib

/-!
Verification of the npm-cleaner scanner (`src/npmcleaner.go` and the unnamed
variant `src/unnamed/part_000`, referred to below as the p000 variant).

Shallow embedding conventions:

* The filesystem is a rose tree `Entry`.  A directory with `readOk = false`
  models a directory on which `os.ReadDir` fails after having read the listed
  children (Go's `ReadDir` returns the entries it managed to read together
  with the error).  `FileMeta.infoOk = false` models a `DirEntry.Info()`
  call that fails.
* Machine integers (Go `int`/`int64`: sizes, Unix seconds, day counts,
  thresholds) are modelled as `Int`; Go's `/` truncates toward zero, which is
  `Int.tdiv`.  Overflow is immaterial for the quantities involved.
* Paths are `List Char` (the rendered path string) built from the
  configured start directory and the name components; the walk additionally
  carries the component list `List String` from the root, which renders to
  the path via `renderPath`.  A `DirEntry.Name()` equals the base name of the
  joined path, so the marker test `filepath.Base(path) == NodeModules` is
  embedded as a test on the entry's name; for the root call the entry's
  `name` field models `filepath.Base` of the start directory.
* `filepath.WalkDir` is embedded by `walkEntry`/`walkList`, following the Go
  library source: callback first, `fs.SkipDir` from a directory skips its
  children, a `ReadDir` failure triggers a second callback invocation whose
  error argument both scanners ignore, and a non-`SkipDir` error aborts the
  whole walk.  A nonexistent root is modelled by passing `none` as the root:
  Go then invokes the callback once with a nil `DirEntry`.
* Both scanners' callbacks are embedded by one function `step`,
  parameterised by the `Variant`: the npm variant applies the exclusion
  patterns only when `Config.onWindows` is set and takes the candidate age
  from the candidate directory's own modification time, while the p000
  variant always applies the exclusion patterns and takes the age from
  `latestModifiedFile` applied to the candidate's parent directory.  In an
  unchanging filesystem, resolving `filepath.Dir(path)` yields exactly the
  parent entry, which the embedded walk passes down; when the scan root
  itself is the candidate, the parent lies outside the modelled tree and the
  age computation is modelled as an I/O error.
* The state `St` threads the Go state (`results`, the npm debug list) plus a
  ghost trace `events` that records, without influencing any control flow or
  result, which nodes the callback visited, which were pruned by an
  exclusion pattern, and each candidate evaluation (age used, whether and
  with which outcome `folderSizeMb` was invoked, and the accepted folder if
  any).  The trace exists only so that temporal properties of the scan can
  be stated.
-/

deriving instance DecidableEq for Except

/-- Unix seconds of Go's zero `time.Time` (`time.Time{}.Unix()`), the initial
`lastModified` value in `latestModifiedFile`. -/
def goZeroTimeUnix : Int := -62135596800

/-- Go integer division truncates toward zero. -/
def goDiv (a b : Int) : Int := Int.tdiv a b

/-- Embeds `bytesToMb`: `int(b / 1024 / 1024)`. -/
def bytesToMb (b : Int) : Int := goDiv (goDiv b 1024) 1024

/-- Embeds `daysSince`: `int(time.Now().Unix()-t.Unix()) / 60 / 60 / 24`,
with the current time passed explicitly as `now`. -/
def daysSince (now t : Int) : Int := goDiv (goDiv (goDiv (now - t) 60) 60) 24

/-- Go error values distinguished by the scanners: the sentinel
`reachedMax = errors.New("reached max found")` and every other (I/O) error. -/
inductive GoErr where
  | ioErr
  | reachedMax
deriving DecidableEq, Repr

/-- Stat metadata of a filesystem node; `infoOk = false` models a failing
`DirEntry.Info()` call. -/
structure FileMeta where
  size : Int
  modTime : Int
  infoOk : Bool
deriving DecidableEq, Repr

/-- A filesystem tree.  `readOk = false` on a directory models an
`os.ReadDir` failure after reading the listed children. -/
inductive Entry where
  | file (name : String) (meta : FileMeta)
  | dir (name : String) (meta : FileMeta) (readOk : Bool) (children : List Entry)

/-- Base name of the node (`DirEntry.Name()`). -/
def Entry.name : Entry → String
  | .file n _ => n
  | .dir n _ _ _ => n

/-- Embeds `DirEntry.IsDir()`. -/
def Entry.isDir : Entry → Bool
  | .file _ _ => false
  | .dir _ _ _ _ => true

def Entry.meta : Entry → FileMeta
  | .file _ m => m
  | .dir _ m _ _ => m

/-- Embeds the `Folder` struct; `path` is the rendered path string. -/
structure Folder where
  path : List Char
  sizeMb : Int
  modDaysAgo : Int
deriving DecidableEq, Repr

/-- Embeds the `Results` struct. -/
structure Results where
  folders : List Folder
  totalSizeMb : Int
deriving DecidableEq, Repr

/-- Embeds `Results.add`: bump the running total, append the folder. -/
def Results.add (r : Results) (f : Folder) : Results :=
  { totalSizeMb := r.totalSizeMb + f.sizeMb, folders := r.folders ++ [f] }

/-- Ordering used by `Results.sort`: `sort.Slice` with
`less i j = folders[i].sizeMb > folders[j].sizeMb` produces a sequence that
is nonincreasing in `sizeMb` (the tie order is unspecified by `sort.Slice`,
which is not stable; the embedding realises one admissible permutation). -/
def sizeGeR (a b : Folder) : Prop := b.sizeMb ≤ a.sizeMb

instance : DecidableRel sizeGeR :=
  fun a b => inferInstanceAs (Decidable (b.sizeMb ≤ a.sizeMb))

instance : IsTotal Folder sizeGeR := ⟨fun a b => le_total b.sizeMb a.sizeMb⟩

instance : IsTrans Folder sizeGeR := ⟨fun _ _ _ h1 h2 => le_trans h2 h1⟩

/-- Embeds `Results.sort`: sort the folders descending by `sizeMb`,
leaving `totalSizeMb` untouched. -/
def Results.sort (r : Results) : Results :=
  { r with folders := List.insertionSort sizeGeR r.folders }

/-- Embeds the `Config` struct (fields used by the scan; the npm variant
additionally reads `onWindows` and `debug`, which the p000 variant does not
have and which the embedded p000 scan ignores). -/
structure Config where
  daysAgo : Int
  mbGreater : Int
  limit : Int
  fromDir : String
  onWindows : Bool
  debug : Bool
deriving DecidableEq, Repr

/-- Embeds the npm variant's `Debug` record. -/
structure DebugRec where
  action : String
  path : List Char
  reason : String
deriving DecidableEq, Repr

/-- Ghost trace entries (see the header comment): they record what the scan
did and never influence it. -/
inductive Event where
  | visited (comps : List String)
  | pruned (comps : List String)
  | candidateEval (comps : List String) (age : Int) (size : Option (Except GoErr Int))
      (accepted : Option Folder)
  | metricFailed (comps : List String)
  | rootInvalid
deriving DecidableEq, Repr

/-- Walk state: the Go state (`results`, npm debug list) plus the ghost
event trace. -/
structure St where
  results : Results
  debugs : List DebugRec
  events : List Event
deriving DecidableEq, Repr

def emit (st : St) (ev : Event) : St := { st with events := st.events ++ [ev] }

/-- Outcome of one `WalkDirFunc` invocation: `nil`, `fs.SkipDir`, or another
error. -/
inductive StepRes where
  | ok
  | skipDir
  | fail (e : GoErr)
deriving DecidableEq, Repr

/-- Outcome of `walkDir` on a subtree, following the Go library: `SkipDir`
returned by the callback for a non-directory propagates to the parent loop
(`skipRest`), every other error propagates (`fail`), otherwise `done`. -/
inductive WalkRet where
  | done
  | skipRest
  | fail (e : GoErr)
deriving DecidableEq, Repr

/-- Which of the two source files is being run. -/
inductive Variant where
  | npm
  | p000
deriving DecidableEq, Repr

/-- Whether the exclusion patterns are consulted: `npmcleaner.go` guards the
check with `if c.onWindows`, `part_000` has no guard. -/
def exclActive : Variant → Config → Bool
  | .npm, c => c.onWindows
  | .p000, _ => true

/-- Appends a debug record in the npm variant when `Config.debug` is set;
`part_000` has no debug machinery. -/
def vDebug (v : Variant) (c : Config) (st : St) (d : DebugRec) : St :=
  match v with
  | .npm => if c.debug then { st with debugs := st.debugs ++ [d] } else st
  | .p000 => st

/- Exclusion patterns.  `matchFolders(name)` builds the unanchored regexp
`.*?/name/.*?` (with `/` the path separator), so `MatchString(path)` holds
iff `/name/` occurs as a substring of the path.  The first pattern is
`matchFolders("\..+?")`: a `/`, a literal dot, one or more arbitrary
non-newline characters, then a `/`, anywhere in the path. -/

/-- Substring occurrence of `pat` in a character list, as Go's regexp
`MatchString` sees an unanchored literal pattern. -/
def hasSubChk (pat : List Char) : List Char → Bool
  | [] => pat.isEmpty
  | c :: t => pat.isPrefixOf (c :: t) || hasSubChk pat t

/-- Scans for a `/` that may be preceded by further non-newline characters:
the closing separator of the `.+?` group. -/
def slashReach : List Char → Bool
  | [] => false
  | c :: t => c == '/' || (c != '\n' && slashReach t)

/-- After `/.`, the pattern `\..+?/` needs at least one non-newline
character and then a `/`. -/
def dotSegTail : List Char → Bool
  | [] => false
  | c :: t => c != '\n' && slashReach t

/-- Occurrence of the hidden-folder pattern `/\..+?/` anywhere in the
path. -/
def dotMatchChk : List Char → Bool
  | '/' :: '.' :: rest => dotSegTail rest || dotMatchChk ('.' :: rest)
  | _ :: t => dotMatchChk t
  | [] => false

/-- The literal segment pattern `/name/`. -/
def segChars (folderName : String) : List Char := '/' :: (folderName.data ++ ['/'])

/-- Embeds the `excludeFolders` loop: the path matches some pattern of
`[matchFolders("\..+?"), matchFolders("AppData"), matchFolders("Program Files")]`. -/
def matchesExcl (p : List Char) : Bool :=
  dotMatchChk p || hasSubChk (segChars "AppData") p || hasSubChk (segChars "Program Files") p

/-- Renders the path visited by the walk: the start directory joined with
the name components (`filepath.Join` appends a separator and the name). -/
def flattenComps : List String → List Char
  | [] => []
  | n :: t => '/' :: n.data ++ flattenComps t

def renderPath (fromDir : String) (comps : List String) : List Char :=
  fromDir.data ++ flattenComps comps

/- Metric walks.  Both are `filepath.WalkDir` calls whose callbacks return
`nil` for directories (never `SkipDir` for files), so they reduce to folds
over the tree in walk order; an `Info()` failure aborts with the error.
`ReadDir` failures are reported through a second callback invocation whose
error argument the callbacks ignore, so the fold simply continues through
the children that were read. -/

mutual
/-- Embeds the walk of `folderSizeMb`: sum `Info().Size()` over every
non-directory node of the candidate's subtree (nested marker folders are
descended into and counted). -/
def sizeWalk : Entry → Except GoErr Int
  | .file _ m => if m.infoOk then .ok m.size else .error .ioErr
  | .dir _ _ _ cs => sizeWalkList cs

def sizeWalkList : List Entry → Except GoErr Int
  | [] => .ok 0
  | e :: rest => do
      let a ← sizeWalk e
      let b ← sizeWalkList rest
      .ok (a + b)
end

/-- Embeds `folderSizeMb`. -/
def folderSizeMb (e : Entry) : Except GoErr Int :=
  match sizeWalk e with
  | .error er => .error er
  | .ok b => .ok (bytesToMb b)

mutual
/-- Embeds the walk of `latestModifiedFile`: thread `lastModified` through
the tree in walk order, skipping every directory named `node_modules`
(`filepath.SkipDir`), updating on files via `modTime.After(lastModified)`,
failing on an `Info()` error. -/
def lmfWalk : Entry → Int → Except GoErr Int
  | .file _ m, acc =>
      if m.infoOk then .ok (if acc < m.modTime then m.modTime else acc)
      else .error .ioErr
  | .dir n _ _ cs, acc =>
      if n == "node_modules" then .ok acc else lmfWalkList cs acc

def lmfWalkList : List Entry → Int → Except GoErr Int
  | [], acc => .ok acc
  | e :: rest, acc => do
      let a ← lmfWalk e acc
      lmfWalkList rest a
end

/-- Embeds `latestModifiedFile`: age in days of the most recent
modification among the non-directory nodes visible from `e` (directories
named `node_modules` are opaque), starting from Go's zero time. -/
def latestModifiedFile (now : Int) (e : Entry) : Except GoErr Int :=
  match lmfWalk e goZeroTimeUnix with
  | .error er => .error er
  | .ok lm => .ok (daysSince now lm)

mutual
/-- Modelled from the spec's description of the age metric: the
non-directory entries encountered when walking a tree while treating every
directory named `node_modules` as opaque.  Used only to compare
`latestModifiedFile` against the specification's wording. -/
def visFiles : Entry → List FileMeta
  | .file _ m => [m]
  | .dir n _ _ cs => if n == "node_modules" then [] else visFilesList cs

def visFilesList : List Entry → List FileMeta
  | [] => []
  | e :: rest => visFiles e ++ visFilesList rest
end

/-- The `lastModified` update of `latestModifiedFile`:
`if modTime.After(lastModified) { lastModified = modTime }`. -/
def updMax (a : Int) (m : FileMeta) : Int := if a < m.modTime then m.modTime else a

/-- Modelled from the spec: the maximum modification timestamp among the
visible non-directory entries (Go's zero time when there are none). -/
def maxModTime (e : Entry) : Int :=
  (visFiles e).foldl updMax goZeroTimeUnix

/-- Embeds the candidate age computation, where the two sources differ:
`npmcleaner.go` takes `daysSince(d.Info().ModTime())` of the candidate
itself (its `latestModifiedFile` call is commented out), `part_000` runs
`latestModifiedFile(filepath.Dir(path))` on the candidate's parent. -/
def ageOf (v : Variant) (now : Int) (parent : Option Entry) (e : Entry) : Except GoErr Int :=
  match v with
  | .npm => if e.meta.infoOk then .ok (daysSince now e.meta.modTime) else .error .ioErr
  | .p000 =>
    match parent with
    | none => .error .ioErr
    | some pe => latestModifiedFile now pe

/-- Embeds the body of the `WalkDirFunc` closure of `run` (both variants;
the nil-`DirEntry` branch of the npm variant is handled in `run` since it
can only fire for the root).  Order as in the source: the non-directory
test, then (npm: if `onWindows`) the exclusion patterns, then the marker
test with age check, size check, acceptance and limit check. -/
def step (v : Variant) (c : Config) (now : Int) (comps : List String)
    (parent : Option Entry) (e : Entry) (st : St) : St × StepRes :=
  let pathS := renderPath c.fromDir comps
  let st := emit st (.visited comps)
  if !e.isDir then (st, .ok)
  else if exclActive v c && matchesExcl pathS then (emit st (.pruned comps), .skipDir)
  else if e.name == "node_modules" then
    match ageOf v now parent e with
    | .error er => (emit st (.metricFailed comps), .fail er)
    | .ok modDaysAgo =>
      if modDaysAgo < c.daysAgo then
        (emit (vDebug v c st ⟨"SKIP", pathS, "Age is less than " ++ toString c.daysAgo ++ " days"⟩)
          (.candidateEval comps modDaysAgo none none), .skipDir)
      else
        match folderSizeMb e with
        | .error er => (emit st (.candidateEval comps modDaysAgo (some (.error er)) none), .fail er)
        | .ok sizeMb =>
          if sizeMb < c.mbGreater then
            (emit (vDebug v c st ⟨"SKIP", pathS, "Size is less than " ++ toString c.mbGreater ++ "MB"⟩)
              (.candidateEval comps modDaysAgo (some (.ok sizeMb)) none), .skipDir)
          else
            let folder : Folder := ⟨pathS, sizeMb, modDaysAgo⟩
            let st := emit st (.candidateEval comps modDaysAgo (some (.ok sizeMb)) (some folder))
            let st := { st with results := st.results.add folder }
            if (st.results.folders.length : Int) == c.limit then (st, .fail .reachedMax)
            else (st, .skipDir)
  else (st, .ok)

mutual
/-- Embeds `walkDir` from the Go library (see the header comment): callback,
then for directories the children, with the second callback invocation on a
`ReadDir` failure. -/
def walkEntry (v : Variant) (c : Config) (now : Int) (comps : List String)
    (parent : Option Entry) (e : Entry) (st : St) : St × WalkRet :=
  match step v c now comps parent e st with
  | (st1, .fail er) => (st1, .fail er)
  | (st1, .skipDir) => if e.isDir then (st1, .done) else (st1, .skipRest)
  | (st1, .ok) =>
    match e with
    | .file _ _ => (st1, .done)
    | .dir n m ro cs =>
      if ro then walkList v c now comps (.dir n m ro cs) cs st1
      else
        match step v c now comps parent (.dir n m ro cs) st1 with
        | (st2, .fail er) => (st2, .fail er)
        | (st2, .skipDir) => (st2, .done)
        | (st2, .ok) => walkList v c now comps (.dir n m ro cs) cs st2

/-- The loop of `walkDir` over the directory entries: `SkipDir` escaping
from a non-directory child stops the loop, other errors propagate. -/
def walkList (v : Variant) (c : Config) (now : Int) (comps : List String)
    (par : Entry) (cs : List Entry) (st : St) : St × WalkRet :=
  match cs with
  | [] => (st, .done)
  | e1 :: rest =>
    match walkEntry v c now (comps ++ [e1.name]) (some par) e1 st with
    | (st1, .done) => walkList v c now comps par rest st1
    | (st1, .skipRest) => (st1, .done)
    | (st1, .fail er) => (st1, .fail er)
end

def st0 : St := ⟨⟨[], 0⟩, [], []⟩

/-- Embeds `run` of both variants.  `root = none` models a start directory
on which `os.Lstat` fails: Go invokes the callback once with a nil
`DirEntry`; the npm callback then records a debug entry and returns `nil`
(so the scan succeeds with empty results), while the p000 callback calls
`d.IsDir()` on the nil interface and panics, modelled as `none`.  After the
walk, an error other than the `reachedMax` sentinel is returned with no
result set; otherwise the results are sorted and returned. -/
def run (v : Variant) (c : Config) (now : Int) (root : Option Entry) :
    Option ((Except GoErr Results) × St) :=
  match root with
  | none =>
    match v with
    | .npm =>
      let st := vDebug .npm c (emit st0 .rootInvalid) ⟨"ERROR!", c.fromDir.data, "PATH is INVALID"⟩
      some (.ok st.results.sort, st)
    | .p000 => none
  | some e =>
    match walkEntry v c now [] none e st0 with
    | (st, .fail er) =>
      if er == .reachedMax then some (.ok st.results.sort, st)
      else some (.error er, st)
    | (st, _) => some (.ok st.results.sort, st)

/-- Embeds the scan part of `main`: a scan error is printed and the process
exits with code 1; otherwise (ignoring the deletion phase) it exits 0. -/
def mainExitCode (res : Except GoErr Results) : Int :=
  match res with
  | .error _ => 1
  | .ok _ => 0

/-- Embeds the `onWindows` assignment of `platformSetup`: set only when
`runtime.GOOS` is `windows`. -/
def platformSetupOnWindows (goos : String) : Bool := goos == "windows"

/-! Helper notions for the proofs: the accepted folders recorded in the
ghost trace, clean (failure-free) traces, and the reachability of an entry
at a component path in a tree. -/

/-- The folders recorded as accepted in a trace, in acceptance order. -/
def acceptedOf : List Event → List Folder
  | [] => []
  | .candidateEval _ _ _ (some f) :: t => f :: acceptedOf t
  | _ :: t => acceptedOf t

/-- Sum of the `sizeMb` fields. -/
def sumMb (l : List Folder) : Int := (l.map Folder.sizeMb).sum

/-- Events that record a failing metric computation (a failing `Info()` or
`latestModifiedFile` call on a candidate, or a failing `folderSizeMb`). -/
def evFailB : Event → Bool
  | .metricFailed _ => true
  | .candidateEval _ _ (some (.error _)) _ => true
  | _ => false

/-- The component path an event talks about. -/
def evComps : Event → Option (List String)
  | .visited q => some q
  | .pruned q => some q
  | .candidateEval q _ _ _ => some q
  | .metricFailed q => some q
  | .rootInvalid => none

/-- The entry reachable from `r` along a component path. -/
inductive At : Entry → List String → Entry → Prop
  | root (r : Entry) : At r [] r
  | child {r : Entry} {p : List String} {n : String} {m : FileMeta} {ro : Bool}
      {cs : List Entry} {e : Entry} :
      At r p (.dir n m ro cs) → e ∈ cs → At r (p ++ [e.name]) e

def cleanEvs (l : List Event) : Prop := ∀ ev ∈ l, evFailB ev = false

/-- After a metric failure nothing further happens: every non-final trace
entry is failure-free, and a failing final entry entails `P` (instantiated
with "the walk aborted with the I/O error"). -/
def failSpecL (l : List Event) (P : Prop) : Prop :=
  (∀ ev ∈ l.dropLast, evFailB ev = false) ∧
  (∀ ev, l.getLast? = some ev → evFailB ev = true → P)

/-- Context invariant of the walk: above the current node no path matched an
active exclusion pattern (otherwise the walk would not have descended). -/
def pruneCtx (v : Variant) (c : Config) (comps : List String) : Prop :=
  exclActive v c = true →
    ∀ p, p <+: comps → p ≠ comps → matchesExcl (renderPath c.fromDir p) = false

/-- Link between the component path and the parent entry handed down by the
walk (the entry Go would find at `filepath.Dir(path)`). -/
def parentLink (r : Entry) (comps : List String) (parent : Option Entry) : Prop :=
  (comps = [] ∧ parent = none) ∨
  (∃ pp nm pe, comps = pp ++ [nm] ∧ parent = some pe ∧ At r pp pe)

/-- How the age recorded for a candidate was obtained, per variant:
npm uses the candidate entry's own modification time, p000 uses
`latestModifiedFile` on the parent entry. -/
def AgeGood (v : Variant) (now : Int) (r : Entry) (q : List String) (a : Int) : Prop :=
  match v with
  | .npm => ∃ ce, At r q ce ∧ ce.meta.infoOk = true ∧ a = daysSince now ce.meta.modTime
  | .p000 => ∃ pp nm pe, q = pp ++ [nm] ∧ At r pp pe ∧ latestModifiedFile now pe = Except.ok a

/-- Per-event invariant: candidate evaluations respect the thresholds and
the short-circuit, were not excluded, and record a correctly computed age;
event paths have no excluded proper ancestor while exclusion is active; no
pruning happens while exclusion is inactive. -/
def goodEv (v : Variant) (c : Config) (now : Int) (r : Entry) (ev : Event) : Prop :=
  (∀ q a s f, ev = Event.candidateEval q a s f →
     (a < c.daysAgo → s = none ∧ f = none) ∧
     (∀ fo, f = some fo → c.daysAgo ≤ a ∧ c.mbGreater ≤ fo.sizeMb ∧ fo.modDaysAgo = a ∧
        s = some (Except.ok fo.sizeMb) ∧ fo.path = renderPath c.fromDir q) ∧
     (exclActive v c = true → matchesExcl (renderPath c.fromDir q) = false) ∧
     AgeGood v now r q a) ∧
  (exclActive v c = true →
     ∀ q, evComps ev = some q →
       ∀ p, p <+: q → p ≠ q → matchesExcl (renderPath c.fromDir p) = false) ∧
  (exclActive v c = false → ∀ q, ev ≠ Event.pruned q)

/-- State extension along a walk segment. -/
def stExt (v : Variant) (c : Config) (now : Int) (r : Entry) (st st' : St) : Prop :=
  ∃ Δ, st'.events = st.events ++ Δ ∧
    st'.results.folders = st.results.folders ++ acceptedOf Δ ∧
    st'.results.totalSizeMb = st.results.totalSizeMb + sumMb (acceptedOf Δ) ∧
    ∀ ev ∈ Δ, goodEv v c now r ev

/-- Limit bookkeeping along a walk segment: starting below the limit, the
walk either stays below it (and did not raise the sentinel) or hits it
exactly, raises the sentinel, and stops right at the accepting event. -/
def limitSpec (c : Config) (st st' : St) (reached : Prop) : Prop :=
  (st.results.folders.length : Int) < c.limit →
    (((st'.results.folders.length : Int) < c.limit ∧ ¬ reached) ∨
     ((st'.results.folders.length : Int) = c.limit ∧ reached ∧
        ∃ q a s fo, st'.events.getLast? = some (Event.candidateEval q a s (some fo))))

def Master (v : Variant) (c : Config) (now : Int) (r : Entry) (st st' : St)
    (failIo reached : Prop) : Prop :=
  stExt v c now r st st' ∧ failSpecL st'.events failIo ∧ limitSpec c st st' reached

/-- The full walk property of a subtree rooted at `e`. -/
def entryWalkSpec (v : Variant) (c : Config) (now : Int) (r : Entry) (e : Entry) : Prop :=
  ∀ comps parent st,
    At r comps e → parentLink r comps parent → pruneCtx v c comps → cleanEvs st.events →
    Master v c now r st (walkEntry v c now comps parent e st).1
      ((walkEntry v c now comps parent e st).2 = WalkRet.fail .ioErr)
      ((walkEntry v c now comps parent e st).2 = WalkRet.fail .reachedMax)

/-! Concrete sample data: a reference time, configurations and small
filesystem trees, with the exact scan outputs used by the witnesses. -/

def nowT : Int := 1700000000

def dayS : Int := 86400

def mbB : Int := 1048576

def cfgStd : Config := ⟨7, 50, 10, "/r", false, false⟩

def cfgWin : Config := ⟨7, 50, 10, "/r", true, false⟩

def cfgL0 : Config := ⟨0, 0, 0, "/r", false, false⟩

def cfgOne : Config := ⟨7, 50, 1, "/r", false, false⟩

/-- A project with an old 60MB `node_modules` (old by its own mod time and
by the parent's newest file). -/
def tAccept : Entry :=
  .dir "r" ⟨0, nowT - 100*dayS, true⟩ true
    [ .dir "proj" ⟨0, nowT - 100*dayS, true⟩ true
        [ .file "app.js" ⟨1000, nowT - 10*dayS, true⟩,
          .dir "node_modules" ⟨0, nowT - 10*dayS, true⟩ true
            [ .file "big.bin" ⟨60*mbB, nowT - 50*dayS, true⟩ ] ] ]

def fAccept : Folder := ⟨"/r/proj/node_modules".data, 60, 10⟩

def stAccept : St :=
  ⟨⟨[fAccept], 60⟩, [],
    [.visited [], .visited ["proj"], .visited ["proj", "app.js"],
     .visited ["proj", "node_modules"],
     .candidateEval ["proj", "node_modules"] 10 (some (Except.ok 60)) (some fAccept)]⟩

/-- Same project, but the `node_modules` directory itself was modified just
now while the project's newest file is 10 days old. -/
def tFresh : Entry :=
  .dir "r" ⟨0, nowT - 100*dayS, true⟩ true
    [ .dir "proj" ⟨0, nowT - 100*dayS, true⟩ true
        [ .file "app.js" ⟨1000, nowT - 10*dayS, true⟩,
          .dir "node_modules" ⟨0, nowT, true⟩ true
            [ .file "big.bin" ⟨60*mbB, nowT - 50*dayS, true⟩ ] ] ]

/-- The parent directory of the candidate inside `tFresh`. -/
def projFresh : Entry :=
  .dir "proj" ⟨0, nowT - 100*dayS, true⟩ true
    [ .file "app.js" ⟨1000, nowT - 10*dayS, true⟩,
      .dir "node_modules" ⟨0, nowT, true⟩ true
        [ .file "big.bin" ⟨60*mbB, nowT - 50*dayS, true⟩ ] ]

def stFresh : St :=
  ⟨⟨[], 0⟩, [],
    [.visited [], .visited ["proj"], .visited ["proj", "app.js"],
     .visited ["proj", "node_modules"],
     .candidateEval ["proj", "node_modules"] 0 none none]⟩

/-- A qualifying marker folder below a hidden (dot) directory. -/
def tHidden : Entry :=
  .dir "r" ⟨0, nowT - 100*dayS, true⟩ true
    [ .dir ".cfg" ⟨0, nowT - 100*dayS, true⟩ true
        [ .dir "node_modules" ⟨0, nowT - 10*dayS, true⟩ true
            [ .file "big.bin" ⟨60*mbB, nowT - 50*dayS, true⟩ ] ] ]

def fHidden : Folder := ⟨"/r/.cfg/node_modules".data, 60, 10⟩

def resHidden : Results := ⟨[fHidden], 60⟩

def stHidden : St :=
  ⟨⟨[fHidden], 60⟩, [],
    [.visited [], .visited [".cfg"], .visited [".cfg", "node_modules"],
     .candidateEval [".cfg", "node_modules"] 10 (some (Except.ok 60)) (some fHidden)]⟩

def stHiddenWin : St :=
  ⟨⟨[], 0⟩, [],
    [.visited [], .visited [".cfg"], .visited [".cfg", "node_modules"],
     .pruned [".cfg", "node_modules"]]⟩

/-- Two qualifying projects, to exercise the limit and the ordering. -/
def tTwo : Entry :=
  .dir "r" ⟨0, nowT - 100*dayS, true⟩ true
    [ .dir "proj1" ⟨0, nowT - 100*dayS, true⟩ true
        [ .dir "node_modules" ⟨0, nowT - 10*dayS, true⟩ true
            [ .file "a.bin" ⟨60*mbB, nowT - 50*dayS, true⟩ ] ],
      .dir "proj2" ⟨0, nowT - 100*dayS, true⟩ true
        [ .dir "node_modules" ⟨0, nowT - 10*dayS, true⟩ true
            [ .file "b.bin" ⟨70*mbB, nowT - 50*dayS, true⟩ ] ] ]

def fTwo1 : Folder := ⟨"/r/proj1/node_modules".data, 60, 10⟩

def fTwo2 : Folder := ⟨"/r/proj2/node_modules".data, 70, 10⟩

def stTwoOne : St :=
  ⟨⟨[fTwo1], 60⟩, [],
    [.visited [], .visited ["proj1"], .visited ["proj1", "node_modules"],
     .candidateEval ["proj1", "node_modules"] 10 (some (Except.ok 60)) (some fTwo1)]⟩

def stTwoStd : St :=
  ⟨⟨[fTwo1, fTwo2], 130⟩, [],
    [.visited [], .visited ["proj1"], .visited ["proj1", "node_modules"],
     .candidateEval ["proj1", "node_modules"] 10 (some (Except.ok 60)) (some fTwo1),
     .visited ["proj2"], .visited ["proj2", "node_modules"],
     .candidateEval ["proj2", "node_modules"] 10 (some (Except.ok 70)) (some fTwo2)]⟩

/-- An unreadable directory next to a qualifying project. -/
def tReadErr : Entry :=
  .dir "r" ⟨0, nowT - 100*dayS, true⟩ true
    [ .dir "junk" ⟨0, nowT - 100*dayS, true⟩ false [ .file "x" ⟨5, nowT - 3*dayS, true⟩ ],
      .dir "proj" ⟨0, nowT - 100*dayS, true⟩ true
        [ .dir "node_modules" ⟨0, nowT - 10*dayS, true⟩ true
            [ .file "big.bin" ⟨60*mbB, nowT - 50*dayS, true⟩ ] ] ]

def fReadErr : Folder := ⟨"/r/proj/node_modules".data, 60, 10⟩

def resReadErr : Results := ⟨[fReadErr], 60⟩

def stReadErr : St :=
  ⟨⟨[fReadErr], 60⟩, [],
    [.visited [], .visited ["junk"], .visited ["junk"], .visited ["junk", "x"],
     .visited ["proj"], .visited ["proj", "node_modules"],
     .candidateEval ["proj", "node_modules"] 10 (some (Except.ok 60)) (some fReadErr)]⟩

/-- A marker folder whose own `Info()` call fails. -/
def tInfoErr : Entry :=
  .dir "r" ⟨0, nowT - 100*dayS, true⟩ true
    [ .dir "node_modules" ⟨0, nowT - 10*dayS, false⟩ true
        [ .file "big.bin" ⟨60*mbB, nowT - 50*dayS, true⟩ ] ]

def stInfoErr : St :=
  ⟨⟨[], 0⟩, [],
    [.visited [], .visited ["node_modules"], .metricFailed ["node_modules"]]⟩

/-- An accepted project followed by a candidate whose size walk fails. -/
def tDiscard : Entry :=
  .dir "r" ⟨0, nowT - 100*dayS, true⟩ true
    [ .dir "proj1" ⟨0, nowT - 100*dayS, true⟩ true
        [ .dir "node_modules" ⟨0, nowT - 10*dayS, true⟩ true
            [ .file "a.bin" ⟨60*mbB, nowT - 50*dayS, true⟩ ] ],
      .dir "proj2" ⟨0, nowT - 100*dayS, true⟩ true
        [ .dir "node_modules" ⟨0, nowT - 10*dayS, true⟩ true
            [ .file "bad.bin" ⟨60*mbB, nowT - 50*dayS, false⟩ ] ] ]

def fDiscard : Folder := ⟨"/r/proj1/node_modules".data, 60, 10⟩

def stDiscard : St :=
  ⟨⟨[fDiscard], 60⟩, [],
    [.visited [], .visited ["proj1"], .visited ["proj1", "node_modules"],
     .candidateEval ["proj1", "node_modules"] 10 (some (Except.ok 60)) (some fDiscard),
     .visited ["proj2"], .visited ["proj2", "node_modules"],
     .candidateEval ["proj2", "node_modules"] 10 (some (Except.error .ioErr)) none]⟩

def stRootInvalid : St := ⟨⟨[], 0⟩, [], [.rootInvalid]⟩

theorem acceptedOf_append (a b : List Event) :
    acceptedOf (a ++ b) = acceptedOf a ++ acceptedOf b := by
  induction a with
  | nil => simp [acceptedOf]
  | cons h t ih =>
    cases h with
    | candidateEval q ag s f => cases f <;> simp [acceptedOf, ih]
    | visited q => simp [acceptedOf, ih]
    | pruned q => simp [acceptedOf, ih]
    | metricFailed q => simp [acceptedOf, ih]
    | rootInvalid => simp [acceptedOf, ih]

theorem sumMb_append (a b : List Folder) : sumMb (a ++ b) = sumMb a + sumMb b := by
  simp [sumMb]

theorem cleanEvs_append {l m : List Event} :
    cleanEvs (l ++ m) ↔ cleanEvs l ∧ cleanEvs m := by
  simp [cleanEvs, List.mem_append, or_imp, forall_and]

theorem failSpecL_of_clean {l : List Event} (hl : cleanEvs l) (P : Prop) :
    failSpecL l P := by
  refine ⟨fun ev hev => hl ev ((List.dropLast_sublist l).subset hev), ?_⟩
  intro ev hev hfail
  rcases List.mem_getLast?_eq_getLast (Option.mem_def.mpr hev) with ⟨hne, rfl⟩
  exact absurd (hl _ (List.getLast_mem hne)) (by simp [hfail])

theorem failSpecL_concat {l : List Event} {x : Event} {P : Prop}
    (hl : cleanEvs l) (hx : evFailB x = true → P) : failSpecL (l ++ [x]) P := by
  refine ⟨?_, ?_⟩
  · intro ev hev
    rw [List.dropLast_concat] at hev
    exact hl ev hev
  · intro ev hev
    rw [List.getLast?_concat] at hev
    cases hev
    exact hx

theorem mem_dropLast_or_getLast {l : List Event} {ev : Event} (h : ev ∈ l) :
    ev ∈ l.dropLast ∨ l.getLast? = some ev := by
  induction l with
  | nil => cases h
  | cons a t ih =>
    cases t with
    | nil =>
      rcases List.mem_singleton.mp h with rfl
      right; rfl
    | cons b t2 =>
      rcases List.mem_cons.mp h with rfl | h2
      · left
        rw [List.dropLast_cons_of_ne_nil (by simp)]
        exact List.mem_cons_self _ _
      · rcases ih h2 with h3 | h3
        · left
          rw [List.dropLast_cons_of_ne_nil (by simp)]
          exact List.mem_cons_of_mem _ h3
        · right
          rw [List.getLast?_cons_cons]
          exact h3

theorem clean_of_failSpecL {l : List Event} {P : Prop}
    (h : failSpecL l P) (hP : ¬ P) : cleanEvs l := by
  intro ev hev
  rcases mem_dropLast_or_getLast hev with h2 | h2
  · exact h.1 ev h2
  · by_contra hf
    exact hP (h.2 ev h2 (by simpa using hf))

/-- Structural induction for the nested `Entry` tree. -/
theorem Entry.myInduct (P : Entry → Prop)
    (hf : ∀ n m, P (.file n m))
    (hd : ∀ n m ro cs, (∀ e ∈ cs, P e) → P (.dir n m ro cs)) : ∀ e, P e
  | .file n m => hf n m
  | .dir n m ro cs => hd n m ro cs (fun e he =>
      have : sizeOf e < sizeOf (Entry.dir n m ro cs) := by
        have h1 := List.sizeOf_lt_of_mem he
        simp only [Entry.dir.sizeOf_spec]
        omega
      Entry.myInduct P hf hd e)
termination_by e => sizeOf e

/-! Characterisation of the metric walks. -/

theorem lmfWalkList_eq (cs : List Entry)
    (ih : ∀ e ∈ cs, ∀ acc, lmfWalk e acc =
      if (visFiles e).all (fun m => m.infoOk) then Except.ok ((visFiles e).foldl updMax acc)
      else Except.error .ioErr) :
    ∀ acc, lmfWalkList cs acc =
      if (visFilesList cs).all (fun m => m.infoOk) then
        Except.ok ((visFilesList cs).foldl updMax acc)
      else Except.error .ioErr := by
  induction cs with
  | nil => intro acc; simp [lmfWalkList, visFilesList]
  | cons e rest ihr =>
    intro acc
    have he := ih e (List.mem_cons_self _ _)
    have hrest := ihr (fun e' he' => ih e' (List.mem_cons_of_mem _ he'))
    show (do
        let a ← lmfWalk e acc
        lmfWalkList rest a) = _
    rw [he]
    by_cases h1 : (visFiles e).all (fun m => m.infoOk)
    · rw [if_pos h1]
      show lmfWalkList rest ((visFiles e).foldl updMax acc) = _
      rw [hrest]
      by_cases h2 : (visFilesList rest).all (fun m => m.infoOk)
      · rw [if_pos h2, if_pos (by simp [visFilesList, List.all_append, h1, h2]),
          show visFilesList (e :: rest) = visFiles e ++ visFilesList rest from rfl,
          List.foldl_append]
      · rw [if_neg h2, if_neg (by simp [visFilesList, List.all_append, h2])]
    · rw [if_neg h1]
      show Except.error GoErr.ioErr = _
      rw [if_neg (by simp [visFilesList, List.all_append, h1])]

theorem lmfWalk_eq : ∀ (e : Entry) (acc : Int), lmfWalk e acc =
    if (visFiles e).all (fun m => m.infoOk) then Except.ok ((visFiles e).foldl updMax acc)
    else Except.error .ioErr := by
  intro e
  induction e using Entry.myInduct with
  | hf n m =>
    intro acc
    by_cases h : m.infoOk <;> simp [lmfWalk, visFiles, h, updMax]
  | hd n m ro cs ih =>
    intro acc
    by_cases h : n == "node_modules"
    · simp [lmfWalk, visFiles, h]
    · rw [show lmfWalk (.dir n m ro cs) acc = lmfWalkList cs acc by simp [lmfWalk, h],
        lmfWalkList_eq cs ih acc]
      simp [visFiles, h]

theorem latestModifiedFile_eq (now : Int) (e : Entry) :
    latestModifiedFile now e =
      if (visFiles e).all (fun m => m.infoOk) then Except.ok (daysSince now (maxModTime e))
      else Except.error .ioErr := by
  unfold latestModifiedFile maxModTime
  rw [lmfWalk_eq]
  by_cases h : (visFiles e).all (fun m => m.infoOk) <;> simp [h, updMax]

theorem latestModifiedFile_ok_iff {now : Int} {e : Entry} {a : Int} :
    latestModifiedFile now e = Except.ok a ↔
      (visFiles e).all (fun m => m.infoOk) = true ∧ a = daysSince now (maxModTime e) := by
  rw [latestModifiedFile_eq]
  by_cases h : (visFiles e).all (fun m => m.infoOk) = true
  · simp [h, eq_comm]
  · simp [if_neg h, h]

theorem latestModifiedFile_error_ioErr {now : Int} {e : Entry} {er : GoErr}
    (h : latestModifiedFile now e = Except.error er) : er = .ioErr := by
  rw [latestModifiedFile_eq] at h
  by_cases h2 : (visFiles e).all (fun m => m.infoOk) = true
  · rw [if_pos h2] at h
    cases h
  · rw [if_neg h2] at h
    cases h
    rfl

theorem sizeWalkList_error_ioErr (cs : List Entry)
    (ih : ∀ e ∈ cs, ∀ er, sizeWalk e = Except.error er → er = .ioErr) :
    ∀ er, sizeWalkList cs = Except.error er → er = .ioErr := by
  induction cs with
  | nil => intro er h; simp [sizeWalkList] at h
  | cons e rest ihr =>
    intro er h
    have hshow : sizeWalkList (e :: rest) = Except.bind (sizeWalk e)
        (fun a => Except.bind (sizeWalkList rest) (fun b => Except.ok (a + b))) := rfl
    rw [hshow] at h
    cases h1 : sizeWalk e with
    | error er1 =>
      rw [h1] at h
      simp only [Except.bind] at h
      have h3 : er1 = er := by simpa using h
      rw [← h3]
      exact ih e (List.mem_cons_self _ _) er1 h1
    | ok a =>
      rw [h1] at h
      simp only [Except.bind] at h
      cases h2 : sizeWalkList rest with
      | error er2 =>
        rw [h2] at h
        simp only [Except.bind] at h
        have h3 : er2 = er := by simpa using h
        rw [← h3]
        exact ihr (fun e' he' => ih e' (List.mem_cons_of_mem _ he')) er2 h2
      | ok b =>
        rw [h2] at h
        simp only [Except.bind] at h
        cases h

theorem sizeWalk_error_ioErr : ∀ (e : Entry) (er : GoErr),
    sizeWalk e = Except.error er → er = .ioErr := by
  intro e
  induction e using Entry.myInduct with
  | hf n m =>
    intro er h
    by_cases h2 : m.infoOk <;> simp [sizeWalk, h2] at h
    exact h.symm
  | hd n m ro cs ih =>
    intro er h
    exact sizeWalkList_error_ioErr cs ih er (by simpa [sizeWalk] using h)

theorem folderSizeMb_error_ioErr {e : Entry} {er : GoErr}
    (h : folderSizeMb e = Except.error er) : er = .ioErr := by
  unfold folderSizeMb at h
  cases h1 : sizeWalk e with
  | error er1 =>
    rw [h1] at h
    have h3 : er1 = er := by simpa using h
    rw [← h3]
    exact sizeWalk_error_ioErr e er1 h1
  | ok b =>
    rw [h1] at h
    cases h

/-! The master invariant relating a walk segment's input and output state. -/

theorem ageOf_error_ioErr {v : Variant} {now : Int} {parent : Option Entry} {e : Entry}
    {er : GoErr} (h : ageOf v now parent e = Except.error er) : er = .ioErr := by
  cases v with
  | npm =>
    unfold ageOf at h
    by_cases h2 : e.meta.infoOk = true
    · rw [if_pos h2] at h; cases h
    · rw [if_neg h2] at h; cases h; rfl
  | p000 =>
    unfold ageOf at h
    cases parent with
    | none => cases h; rfl
    | some pe => exact latestModifiedFile_error_ioErr h

theorem ageOf_npm_ok {now : Int} {parent : Option Entry} {e : Entry} {a : Int}
    (h : ageOf .npm now parent e = Except.ok a) :
    e.meta.infoOk = true ∧ a = daysSince now e.meta.modTime := by
  unfold ageOf at h
  by_cases h2 : e.meta.infoOk = true
  · rw [if_pos h2] at h
    cases h
    exact ⟨h2, rfl⟩
  · rw [if_neg h2] at h; cases h

theorem ageOf_p000_ok {now : Int} {parent : Option Entry} {e : Entry} {a : Int}
    (h : ageOf .p000 now parent e = Except.ok a) :
    ∃ pe, parent = some pe ∧ latestModifiedFile now pe = Except.ok a := by
  unfold ageOf at h
  cases parent with
  | none => cases h
  | some pe => exact ⟨pe, rfl, h⟩

theorem Master_congr {v : Variant} {c : Config} {now : Int} {r : Entry} {st st' : St}
    {P Q P2 Q2 : Prop} (h : Master v c now r st st' P Q)
    (hP : P → P2) (hQ : Q ↔ Q2) : Master v c now r st st' P2 Q2 := by
  obtain ⟨h1, ⟨h2a, h2b⟩, h3⟩ := h
  refine ⟨h1, ⟨h2a, fun ev hev hf => hP (h2b ev hev hf)⟩, ?_⟩
  intro hlt
  rcases h3 hlt with ⟨ha, hb⟩ | ⟨ha, hb, hc⟩
  · exact Or.inl ⟨ha, fun hq => hb (hQ.mpr hq)⟩
  · exact Or.inr ⟨ha, hQ.mp hb, hc⟩

theorem Master_seq {v : Variant} {c : Config} {now : Int} {r : Entry} {st st1 st2 : St}
    {P Q : Prop} (h1 : Master v c now r st st1 False False)
    (h2 : Master v c now r st1 st2 P Q) : Master v c now r st st2 P Q := by
  obtain ⟨⟨d1, e1, f1, t1, g1⟩, _, l1⟩ := h1
  obtain ⟨⟨d2, e2, f2, t2, g2⟩, fs2, l2⟩ := h2
  refine ⟨⟨d1 ++ d2, ?_, ?_, ?_, ?_⟩, fs2, ?_⟩
  · rw [e2, e1, List.append_assoc]
  · rw [f2, f1, acceptedOf_append, List.append_assoc]
  · rw [t2, t1, acceptedOf_append, sumMb_append]; ring
  · intro ev hev
    rcases List.mem_append.mp hev with h | h
    · exact g1 ev h
    · exact g2 ev h
  · intro hlt
    rcases l1 hlt with ⟨ha, _⟩ | ⟨_, hb, _⟩
    · exact l2 ha
    · exact hb.elim

theorem cleanEvs_snoc {l : List Event} {x : Event} (hl : cleanEvs l)
    (hx : evFailB x = false) : cleanEvs (l ++ [x]) :=
  cleanEvs_append.mpr ⟨hl, fun ev hev => by rcases List.mem_singleton.mp hev with rfl; exact hx⟩

theorem limitSpec_unchanged {c : Config} {st st' : St} {Q : Prop}
    (h : st'.results = st.results) (hq : ¬ Q) : limitSpec c st st' Q :=
  fun hlt => Or.inl ⟨by rw [h]; exact hlt, hq⟩

theorem goodEv_visited {v : Variant} {c : Config} {now : Int} {r : Entry}
    {comps : List String} (hCtx : pruneCtx v c comps) :
    goodEv v c now r (Event.visited comps) := by
  refine ⟨?_, ?_, ?_⟩
  · intro q a s f h; cases h
  · intro hact q hq p hp hne
    have : comps = q := by simpa [evComps] using hq
    subst this
    exact hCtx hact p hp hne
  · intro _ q h; cases h

theorem goodEv_pruned {v : Variant} {c : Config} {now : Int} {r : Entry}
    {comps : List String} (hCtx : pruneCtx v c comps)
    (hact : exclActive v c = true) :
    goodEv v c now r (Event.pruned comps) := by
  refine ⟨?_, ?_, ?_⟩
  · intro q a s f h; cases h
  · intro hact2 q hq p hp hne
    have : comps = q := by simpa [evComps] using hq
    subst this
    exact hCtx hact2 p hp hne
  · intro hf q h
    rw [hact] at hf
    cases hf

theorem goodEv_metricFailed {v : Variant} {c : Config} {now : Int} {r : Entry}
    {comps : List String} (hCtx : pruneCtx v c comps) :
    goodEv v c now r (Event.metricFailed comps) := by
  refine ⟨?_, ?_, ?_⟩
  · intro q a s f h; cases h
  · intro hact q hq p hp hne
    have : comps = q := by simpa [evComps] using hq
    subst this
    exact hCtx hact p hp hne
  · intro _ q h; cases h

theorem goodEv_candidateEval {v : Variant} {c : Config} {now : Int} {r : Entry}
    {comps : List String} {a : Int} {s : Option (Except GoErr Int)} {f : Option Folder}
    (hCtx : pruneCtx v c comps)
    (hNoMatch : exclActive v c = true → matchesExcl (renderPath c.fromDir comps) = false)
    (hAge : AgeGood v now r comps a)
    (hshort : a < c.daysAgo → s = none ∧ f = none)
    (hacc : ∀ fo, f = some fo → c.daysAgo ≤ a ∧ c.mbGreater ≤ fo.sizeMb ∧ fo.modDaysAgo = a ∧
        s = some (Except.ok fo.sizeMb) ∧ fo.path = renderPath c.fromDir comps) :
    goodEv v c now r (Event.candidateEval comps a s f) := by
  refine ⟨?_, ?_, ?_⟩
  · intro q a2 s2 f2 h
    injection h with h1 h2 h3 h4
    subst h1; subst h2; subst h3; subst h4
    exact ⟨hshort, hacc, hNoMatch, hAge⟩
  · intro hact q hq p hp hne
    have : comps = q := by simpa [evComps] using hq
    subst this
    exact hCtx hact p hp hne
  · intro _ q h; cases h

theorem AgeGood_of_ok {v : Variant} {now : Int} {r : Entry}
    {comps : List String} {parent : Option Entry} {e : Entry} {a : Int}
    (hA : At r comps e) (hPL : parentLink r comps parent)
    (hage : ageOf v now parent e = Except.ok a) : AgeGood v now r comps a := by
  cases v with
  | npm =>
    obtain ⟨hio, ha⟩ := ageOf_npm_ok hage
    exact ⟨e, hA, hio, ha⟩
  | p000 =>
    obtain ⟨pe, hpe, hlmf⟩ := ageOf_p000_ok hage
    rcases hPL with ⟨hc0, hp0⟩ | ⟨pp, nm, pe2, hcomps, hpar, hAt⟩
    · rw [hp0] at hpe; cases hpe
    · rw [hpar] at hpe
      injection hpe with hpe2
      subst hpe2
      exact ⟨pp, nm, pe2, hcomps, hAt, hlmf⟩

theorem emit_events (st : St) (ev : Event) : (emit st ev).events = st.events ++ [ev] := rfl

theorem emit_results (st : St) (ev : Event) : (emit st ev).results = st.results := rfl

theorem vDebug_events (v : Variant) (c : Config) (st : St) (d : DebugRec) :
    (vDebug v c st d).events = st.events := by
  cases v with
  | npm =>
    show (if c.debug then { st with debugs := st.debugs ++ [d] } else st).events = st.events
    split <;> rfl
  | p000 => rfl

theorem vDebug_results (v : Variant) (c : Config) (st : St) (d : DebugRec) :
    (vDebug v c st d).results = st.results := by
  cases v with
  | npm =>
    show (if c.debug then { st with debugs := st.debugs ++ [d] } else st).results = st.results
    split <;> rfl
  | p000 => rfl

set_option maxHeartbeats 1600000 in
theorem step_spec (v : Variant) (c : Config) (now : Int) (r : Entry)
    (comps : List String) (parent : Option Entry) (e : Entry) (st : St)
    (hA : At r comps e) (hPL : parentLink r comps parent)
    (hCtx : pruneCtx v c comps) (hClean : cleanEvs st.events) :
    Master v c now r st (step v c now comps parent e st).1
        ((step v c now comps parent e st).2 = StepRes.fail .ioErr)
        ((step v c now comps parent e st).2 = StepRes.fail .reachedMax) ∧
    ((step v c now comps parent e st).2 = StepRes.ok → e.isDir = true →
        exclActive v c = true → matchesExcl (renderPath c.fromDir comps) = false) ∧
    (e.isDir = false → (step v c now comps parent e st).2 = StepRes.ok) := by
  have hCleanV : cleanEvs (st.events ++ [Event.visited comps]) :=
    cleanEvs_snoc hClean (by simp [evFailB])
  simp only [step]
  split
  · -- non-directory node: record the visit, return nil
    rename_i hdir
    refine ⟨⟨⟨[Event.visited comps], by simp [emit_events], by simp [emit_results, acceptedOf],
        by simp [emit_results, acceptedOf, sumMb], ?_⟩, ?_, ?_⟩, ?_, ?_⟩
    · intro ev hev
      rcases List.mem_singleton.mp hev with rfl
      exact goodEv_visited hCtx
    · rw [emit_events]
      exact failSpecL_concat hClean (by intro h; simp [evFailB] at h)
    · exact limitSpec_unchanged (emit_results _ _) (by simp)
    · intro _ hdir2 _
      exact absurd hdir2 (by simpa using hdir)
    · intro _; rfl
  · rename_i hdir0
    have hdirT : e.isDir = true := by simpa using hdir0
    split
    · -- excluded directory: prune
      rename_i hex
      obtain ⟨hact, hmat⟩ : exclActive v c = true ∧
          matchesExcl (renderPath c.fromDir comps) = true := by simpa using hex
      refine ⟨⟨⟨[Event.visited comps, Event.pruned comps],
          by simp [emit_events], by simp [emit_results, acceptedOf],
          by simp [emit_results, acceptedOf, sumMb], ?_⟩, ?_, ?_⟩, ?_, ?_⟩
      · intro ev hev
        rcases List.mem_cons.mp hev with rfl | hev2
        · exact goodEv_visited hCtx
        · rcases List.mem_singleton.mp hev2 with rfl
          exact goodEv_pruned hCtx hact
      · rw [emit_events, emit_events]
        exact failSpecL_concat hCleanV (by intro h; simp [evFailB] at h)
      · exact limitSpec_unchanged (by rw [emit_results, emit_results]) (by simp)
      · intro hok; cases hok
      · intro hdf
        rw [hdf] at hdirT; cases hdirT
    · rename_i hex
      have hNoMatch : exclActive v c = true →
          matchesExcl (renderPath c.fromDir comps) = false := by
        intro hact
        cases hm : matchesExcl (renderPath c.fromDir comps) with
        | false => rfl
        | true => exact absurd (by simp [hact, hm]) hex
      split
      · -- marker directory: candidate evaluation
        rename_i hmark
        split
        · -- age computation failed
          rename_i er hage
          have her := ageOf_error_ioErr hage
          subst her
          refine ⟨⟨⟨[Event.visited comps, Event.metricFailed comps],
              by simp [emit_events], by simp [emit_results, acceptedOf],
              by simp [emit_results, acceptedOf, sumMb], ?_⟩, ?_, ?_⟩, ?_, ?_⟩
          · intro ev hev
            rcases List.mem_cons.mp hev with rfl | hev2
            · exact goodEv_visited hCtx
            · rcases List.mem_singleton.mp hev2 with rfl
              exact goodEv_metricFailed hCtx
          · rw [emit_events, emit_events]
            exact failSpecL_concat hCleanV (by intro _; rfl)
          · exact limitSpec_unchanged (by rw [emit_results, emit_results])
              (by intro h; injection h with h2; cases h2)
          · intro hok; cases hok
          · intro hdf
            rw [hdf] at hdirT; cases hdirT
        · rename_i a hage
          have hAge : AgeGood v now r comps a := AgeGood_of_ok hA hPL hage
          split
          · -- too fresh: reject without computing the size
            rename_i hlt
            refine ⟨⟨⟨[Event.visited comps, Event.candidateEval comps a none none],
                by simp [emit_events, vDebug_events],
                by simp [emit_results, vDebug_results, acceptedOf],
                by simp [emit_results, vDebug_results, acceptedOf, sumMb], ?_⟩,
                ?_, ?_⟩, ?_, ?_⟩
            · intro ev hev
              rcases List.mem_cons.mp hev with rfl | hev2
              · exact goodEv_visited hCtx
              · rcases List.mem_singleton.mp hev2 with rfl
                exact goodEv_candidateEval hCtx hNoMatch hAge (fun _ => ⟨rfl, rfl⟩)
                  (fun fo h => by cases h)
            · rw [emit_events, vDebug_events, emit_events]
              exact failSpecL_concat hCleanV (by intro h; simp [evFailB] at h)
            · exact limitSpec_unchanged
                (by rw [emit_results, vDebug_results, emit_results]) (by simp)
            · intro hok; cases hok
            · intro hdf
              rw [hdf] at hdirT; cases hdirT
          · rename_i hnlt
            split
            · -- size computation failed
              rename_i er hsz
              have her := folderSizeMb_error_ioErr hsz
              subst her
              refine ⟨⟨⟨[Event.visited comps,
                  Event.candidateEval comps a (some (Except.error .ioErr)) none],
                  by simp [emit_events], by simp [emit_results, acceptedOf],
                  by simp [emit_results, acceptedOf, sumMb], ?_⟩, ?_, ?_⟩, ?_, ?_⟩
              · intro ev hev
                rcases List.mem_cons.mp hev with rfl | hev2
                · exact goodEv_visited hCtx
                · rcases List.mem_singleton.mp hev2 with rfl
                  exact goodEv_candidateEval hCtx hNoMatch hAge
                    (fun h => absurd h hnlt) (fun fo h => by cases h)
              · rw [emit_events, emit_events]
                exact failSpecL_concat hCleanV (by intro _; rfl)
              · exact limitSpec_unchanged (by rw [emit_results, emit_results])
                  (by intro h; injection h with h2; cases h2)
              · intro hok; cases hok
              · intro hdf
                rw [hdf] at hdirT; cases hdirT
            · rename_i sz hsz
              split
              · -- too small: reject
                rename_i hslt
                refine ⟨⟨⟨[Event.visited comps,
                    Event.candidateEval comps a (some (Except.ok sz)) none],
                    by simp [emit_events, vDebug_events],
                    by simp [emit_results, vDebug_results, acceptedOf],
                    by simp [emit_results, vDebug_results, acceptedOf, sumMb], ?_⟩,
                    ?_, ?_⟩, ?_, ?_⟩
                · intro ev hev
                  rcases List.mem_cons.mp hev with rfl | hev2
                  · exact goodEv_visited hCtx
                  · rcases List.mem_singleton.mp hev2 with rfl
                    exact goodEv_candidateEval hCtx hNoMatch hAge
                      (fun h => absurd h hnlt) (fun fo h => by cases h)
                · rw [emit_events, vDebug_events, emit_events]
                  exact failSpecL_concat hCleanV (by intro h; simp [evFailB] at h)
                · exact limitSpec_unchanged
                    (by rw [emit_results, vDebug_results, emit_results]) (by simp)
                · intro hok; cases hok
                · intro hdf
                  rw [hdf] at hdirT; cases hdirT
              · rename_i hnslt
                split
                · -- accepted and the limit is reached: stop the whole walk
                  rename_i hlim
                  refine ⟨⟨⟨[Event.visited comps, Event.candidateEval comps a
                      (some (Except.ok sz))
                      (some ⟨renderPath c.fromDir comps, sz, a⟩)],
                      by simp [emit_events, Results.add],
                      by simp [emit_results, acceptedOf, Results.add],
                      by simp [emit_results, acceptedOf, sumMb, Results.add], ?_⟩,
                      ?_, ?_⟩, ?_, ?_⟩
                  · intro ev hev
                    rcases List.mem_cons.mp hev with rfl | hev2
                    · exact goodEv_visited hCtx
                    · rcases List.mem_singleton.mp hev2 with rfl
                      refine goodEv_candidateEval hCtx hNoMatch hAge
                        (fun h => absurd h hnlt) ?_
                      intro fo h
                      injection h with h2
                      subst h2
                      exact ⟨Int.not_lt.mp hnlt, Int.not_lt.mp hnslt, rfl, rfl, rfl⟩
                  · show failSpecL ((emit (emit st (Event.visited comps)) _).events) _
                    rw [emit_events, emit_events]
                    exact failSpecL_concat hCleanV (by intro h; simp [evFailB] at h)
                  · intro hlt
                    refine Or.inr ⟨?_, rfl, ?_⟩
                    · have h2 := beq_iff_eq.mp hlim
                      simpa [emit_results, Results.add] using h2
                    · refine ⟨comps, a, some (Except.ok sz),
                        ⟨renderPath c.fromDir comps, sz, a⟩, ?_⟩
                      show (emit (emit st (Event.visited comps)) _).events.getLast? = _
                      rw [emit_events, emit_events, List.getLast?_concat]
                  · intro hok; cases hok
                  · intro hdf
                    rw [hdf] at hdirT; cases hdirT
                · -- accepted, limit not reached yet
                  rename_i hlim
                  refine ⟨⟨⟨[Event.visited comps, Event.candidateEval comps a
                      (some (Except.ok sz))
                      (some ⟨renderPath c.fromDir comps, sz, a⟩)],
                      by simp [emit_events, Results.add],
                      by simp [emit_results, acceptedOf, Results.add],
                      by simp [emit_results, acceptedOf, sumMb, Results.add], ?_⟩,
                      ?_, ?_⟩, ?_, ?_⟩
                  · intro ev hev
                    rcases List.mem_cons.mp hev with rfl | hev2
                    · exact goodEv_visited hCtx
                    · rcases List.mem_singleton.mp hev2 with rfl
                      refine goodEv_candidateEval hCtx hNoMatch hAge
                        (fun h => absurd h hnlt) ?_
                      intro fo h
                      injection h with h2
                      subst h2
                      exact ⟨Int.not_lt.mp hnlt, Int.not_lt.mp hnslt, rfl, rfl, rfl⟩
                  · show failSpecL ((emit (emit st (Event.visited comps)) _).events) _
                    rw [emit_events, emit_events]
                    exact failSpecL_concat hCleanV (by intro h; simp [evFailB] at h)
                  · intro hlt
                    refine Or.inl ⟨?_, by simp⟩
                    have hlen : ((emit (emit st (Event.visited comps))
                        (Event.candidateEval comps a (some (Except.ok sz))
                          (some ⟨renderPath c.fromDir comps, sz, a⟩))).results.add
                        ⟨renderPath c.fromDir comps, sz, a⟩).folders.length
                        = st.results.folders.length + 1 := by
                      rw [emit_results, emit_results]
                      simp [Results.add]
                    have hne : ¬ (((st.results.folders.length + 1 : Nat) : Int) = c.limit) := by
                      intro h2
                      apply hlim
                      rw [beq_iff_eq, hlen]
                      exact h2
                    rw [hlen]
                    push_cast at hne ⊢
                    omega
                  · intro hok; cases hok
                  · intro hdf
                    rw [hdf] at hdirT; cases hdirT
      · -- ordinary directory: descend
        rename_i hmark
        refine ⟨⟨⟨[Event.visited comps], by simp [emit_events],
            by simp [emit_results, acceptedOf],
            by simp [emit_results, acceptedOf, sumMb], ?_⟩, ?_, ?_⟩, ?_, ?_⟩
        · intro ev hev
          rcases List.mem_singleton.mp hev with rfl
          exact goodEv_visited hCtx
        · rw [emit_events]
          exact failSpecL_concat hClean (by intro h; simp [evFailB] at h)
        · exact limitSpec_unchanged (emit_results _ _) (by simp)
        · intro _ _ hact
          exact hNoMatch hact
        · intro _; rfl

theorem pruneCtx_child {v : Variant} {c : Config} {comps : List String} (nm : String)
    (hCtx : pruneCtx v c comps)
    (hSelf : exclActive v c = true → matchesExcl (renderPath c.fromDir comps) = false) :
    pruneCtx v c (comps ++ [nm]) := by
  intro hact p hp hne
  rcases List.prefix_concat_iff.mp hp with rfl | hp2
  · exact absurd rfl hne
  · by_cases hpe : p = comps
    · subst hpe
      exact hSelf hact
    · exact hCtx hact p hp2 hpe

theorem walkList_spec (v : Variant) (c : Config) (now : Int) (r : Entry)
    (comps : List String) (par : Entry)
    (hAtPar : At r comps par)
    (hSelf : exclActive v c = true → matchesExcl (renderPath c.fromDir comps) = false) :
    ∀ cs : List Entry,
      (∀ e ∈ cs, entryWalkSpec v c now r e) →
      (∀ e ∈ cs, At r (comps ++ [e.name]) e) →
      pruneCtx v c comps →
      ∀ st, cleanEvs st.events →
      Master v c now r st (walkList v c now comps par cs st).1
        ((walkList v c now comps par cs st).2 = WalkRet.fail .ioErr)
        ((walkList v c now comps par cs st).2 = WalkRet.fail .reachedMax) := by
  intro cs
  induction cs with
  | nil =>
    intro _ _ _ st hClean
    simp only [walkList]
    refine ⟨⟨[], by simp, by simp [acceptedOf], by simp [acceptedOf, sumMb], by simp⟩,
      failSpecL_of_clean hClean _, ?_⟩
    intro hlt
    exact Or.inl ⟨hlt, by simp⟩
  | cons e1 rest ih =>
    intro hIH hAt hCtx st hClean
    have hE := hIH e1 (List.mem_cons_self _ _) (comps ++ [e1.name]) (some par) st
      (hAt e1 (List.mem_cons_self _ _))
      (Or.inr ⟨comps, e1.name, par, rfl, rfl, hAtPar⟩)
      (pruneCtx_child e1.name hCtx hSelf) hClean
    rcases hres : walkEntry v c now (comps ++ [e1.name]) (some par) e1 st with ⟨st1, ret⟩
    rw [hres] at hE
    simp only [walkList, hres]
    cases ret with
    | done =>
      have hclean1 : cleanEvs st1.events :=
        clean_of_failSpecL hE.2.1 (by simp)
      have hE' : Master v c now r st st1 False False :=
        Master_congr hE (by intro h; cases h) (by constructor <;> (intro h; cases h))
      exact Master_seq hE'
        (ih (fun e' he' => hIH e' (List.mem_cons_of_mem _ he'))
          (fun e' he' => hAt e' (List.mem_cons_of_mem _ he')) hCtx st1 hclean1)
    | skipRest =>
      exact Master_congr hE (by intro h; cases h) (by constructor <;> (intro h; cases h))
    | fail er =>
      exact hE

theorem walkEntry_spec (v : Variant) (c : Config) (now : Int) (r : Entry) :
    ∀ e, entryWalkSpec v c now r e := by
  intro e
  induction e using Entry.myInduct with
  | hf n m =>
    intro comps parent st hA hPL hCtx hClean
    obtain ⟨hM, _, hExtra3⟩ := step_spec v c now r comps parent (.file n m) st hA hPL hCtx hClean
    have hok : (step v c now comps parent (.file n m) st).2 = .ok := hExtra3 rfl
    rcases hstep : step v c now comps parent (.file n m) st with ⟨st1, res⟩
    rw [hstep] at hok hM
    subst hok
    simp only [walkEntry, hstep]
    exact Master_congr hM (by intro h; cases h) (by constructor <;> (intro h; cases h))
  | hd n m ro cs ihcs =>
    intro comps parent st hA hPL hCtx hClean
    obtain ⟨hM1, hExtra2, _⟩ := step_spec v c now r comps parent (.dir n m ro cs) st hA hPL hCtx hClean
    rcases hstep : step v c now comps parent (.dir n m ro cs) st with ⟨st1, res⟩
    rw [hstep] at hM1 hExtra2
    simp only [walkEntry, hstep]
    cases res with
    | fail er =>
      exact Master_congr hM1 (by intro h; injection h with h2; rw [h2])
        (by constructor <;> (intro h; injection h with h2; rw [h2]))
    | skipDir =>
      try simp only [Entry.isDir, if_true]
      exact Master_congr hM1 (by intro h; cases h) (by constructor <;> (intro h; cases h))
    | ok =>
      have hclean1 : cleanEvs st1.events := clean_of_failSpecL hM1.2.1 (by simp)
      have hM1' : Master v c now r st st1 False False :=
        Master_congr hM1 (by intro h; cases h) (by constructor <;> (intro h; cases h))
      have hSelf : exclActive v c = true →
          matchesExcl (renderPath c.fromDir comps) = false := hExtra2 rfl rfl
      have hChildAt : ∀ e' ∈ cs, At r (comps ++ [e'.name]) e' :=
        fun e' he' => At.child hA he'
      by_cases hro : ro = true
      · subst hro
        try simp only [if_true]
        exact Master_seq hM1'
          (walkList_spec v c now r comps (.dir n m true cs) hA hSelf cs ihcs hChildAt hCtx
            st1 hclean1)
      · have hro2 : ro = false := by simpa using hro
        subst hro2
        try simp only [Bool.false_eq_true, if_false]
        obtain ⟨hM2, _, _⟩ := step_spec v c now r comps parent (.dir n m false cs) st1
          hA hPL hCtx hclean1
        rcases hstep2 : step v c now comps parent (.dir n m false cs) st1 with ⟨st2, res2⟩
        rw [hstep2] at hM2
        try simp only [hstep2]
        cases res2 with
        | fail er =>
          exact Master_seq hM1' (Master_congr hM2
            (by intro h; injection h with h2; rw [h2])
            (by constructor <;> (intro h; injection h with h2; rw [h2])))
        | skipDir =>
          exact Master_seq hM1' (Master_congr hM2 (by intro h; cases h)
            (by constructor <;> (intro h; cases h)))
        | ok =>
          have hclean2 : cleanEvs st2.events := clean_of_failSpecL hM2.2.1 (by simp)
          have hM2' : Master v c now r st1 st2 False False :=
            Master_congr hM2 (by intro h; cases h) (by constructor <;> (intro h; cases h))
          exact Master_seq hM1' (Master_seq hM2'
            (walkList_spec v c now r comps (.dir n m false cs) hA hSelf cs ihcs hChildAt hCtx
              st2 hclean2))

theorem failSpecL_mono {l : List Event} {P Q : Prop} (h : failSpecL l P) (hpq : P → Q) :
    failSpecL l Q :=
  ⟨h.1, fun ev he hf => hpq (h.2 ev he hf)⟩

theorem mem_acceptedOf {l : List Event} {fo : Folder} (h : fo ∈ acceptedOf l) :
    ∃ q a s, Event.candidateEval q a s (some fo) ∈ l := by
  induction l with
  | nil => cases h
  | cons ev t ih =>
    cases ev with
    | candidateEval q a s f =>
      cases f with
      | none =>
        obtain ⟨q2, a2, s2, hm⟩ := ih (by simpa [acceptedOf] using h)
        exact ⟨q2, a2, s2, List.mem_cons_of_mem _ hm⟩
      | some fo2 =>
        rcases List.mem_cons.mp (by simpa [acceptedOf] using h) with rfl | h2
        · exact ⟨q, a, s, List.mem_cons_self _ _⟩
        · obtain ⟨q2, a2, s2, hm⟩ := ih h2
          exact ⟨q2, a2, s2, List.mem_cons_of_mem _ hm⟩
    | visited q =>
      obtain ⟨q2, a2, s2, hm⟩ := ih (by simpa [acceptedOf] using h)
      exact ⟨q2, a2, s2, List.mem_cons_of_mem _ hm⟩
    | pruned q =>
      obtain ⟨q2, a2, s2, hm⟩ := ih (by simpa [acceptedOf] using h)
      exact ⟨q2, a2, s2, List.mem_cons_of_mem _ hm⟩
    | metricFailed q =>
      obtain ⟨q2, a2, s2, hm⟩ := ih (by simpa [acceptedOf] using h)
      exact ⟨q2, a2, s2, List.mem_cons_of_mem _ hm⟩
    | rootInvalid =>
      obtain ⟨q2, a2, s2, hm⟩ := ih (by simpa [acceptedOf] using h)
      exact ⟨q2, a2, s2, List.mem_cons_of_mem _ hm⟩

/-- The collected facts about a completed scan over an existing root. -/
theorem run_spec (v : Variant) (c : Config) (now : Int) (root : Entry)
    (res : Except GoErr Results) (st : St)
    (h : run v c now (some root) = some (res, st)) :
    st.results.folders = acceptedOf st.events ∧
    st.results.totalSizeMb = sumMb (acceptedOf st.events) ∧
    (∀ ev ∈ st.events, goodEv v c now root ev) ∧
    failSpecL st.events (res = Except.error GoErr.ioErr) ∧
    (0 < c.limit →
      ((st.results.folders.length : Int) < c.limit ∨
        (((st.results.folders.length : Int) = c.limit) ∧
          (∃ q a s fo, st.events.getLast? = some (Event.candidateEval q a s (some fo))) ∧
          res = Except.ok st.results.sort))) ∧
    (∀ rr, res = Except.ok rr → rr = st.results.sort) := by
  have hM := walkEntry_spec v c now root root [] none st0 (At.root root)
    (Or.inl ⟨rfl, rfl⟩)
    (by
      intro _ p hp hne
      exact absurd (List.prefix_nil.mp hp) hne)
    (by intro ev hev; cases hev)
  rcases hw : walkEntry v c now [] none root st0 with ⟨st2, ret⟩
  rw [hw] at hM
  rw [show run v c now (some root) = (match walkEntry v c now [] none root st0 with
    | (st, .fail er) =>
      if er == .reachedMax then some (.ok st.results.sort, st)
      else some (.error er, st)
    | (st, _) => some (.ok st.results.sort, st)) from rfl, hw] at h
  obtain ⟨⟨Δ, hev, hf, ht, hg⟩, hfs, hls⟩ := hM
  have hev2 : st2.events = Δ := by simpa [st0] using hev
  have hf2 : st2.results.folders = acceptedOf st2.events := by
    rw [hev2]
    simpa [st0] using hf
  have ht2 : st2.results.totalSizeMb = sumMb (acceptedOf st2.events) := by
    rw [hev2]
    simpa [st0] using ht
  have hg2 : ∀ ev ∈ st2.events, goodEv v c now root ev := by
    rw [hev2]; exact hg
  have hls2 := fun hpos => hls (by simpa [st0] using hpos)
  cases ret with
  | done =>
    simp only [] at h
    injection h with h2
    injection h2 with hres hst
    subst hst
    subst hres
    refine ⟨hf2, ht2, hg2, failSpecL_mono hfs (by intro h3; cases h3), ?_, ?_⟩
    · intro hpos
      rcases hls2 hpos with ⟨hlt, _⟩ | ⟨_, hre, _⟩
      · exact Or.inl hlt
      · cases hre
    · intro rr hrr
      injection hrr with h4
      exact h4.symm
  | skipRest =>
    simp only [] at h
    injection h with h2
    injection h2 with hres hst
    subst hst
    subst hres
    refine ⟨hf2, ht2, hg2, failSpecL_mono hfs (by intro h3; cases h3), ?_, ?_⟩
    · intro hpos
      rcases hls2 hpos with ⟨hlt, _⟩ | ⟨_, hre, _⟩
      · exact Or.inl hlt
      · cases hre
    · intro rr hrr
      injection hrr with h4
      exact h4.symm
  | fail er =>
    cases er with
    | reachedMax =>
      simp only [] at h
      rw [if_pos (by rfl)] at h
      injection h with h2
      injection h2 with hres hst
      subst hst
      subst hres
      refine ⟨hf2, ht2, hg2, failSpecL_mono hfs (by intro h3; injection h3 with h4; cases h4), ?_, ?_⟩
      · intro hpos
        rcases hls2 hpos with ⟨_, hnr⟩ | ⟨heq, _, hlast⟩
        · exact absurd rfl hnr
        · exact Or.inr ⟨heq, hlast, rfl⟩
      · intro rr hrr
        injection hrr with h4
        exact h4.symm
    | ioErr =>
      simp only [] at h
      rw [if_neg (by simp)] at h
      injection h with h2
      injection h2 with hres hst
      subst hst
      subst hres
      refine ⟨hf2, ht2, hg2, failSpecL_mono hfs (by intro _; rfl), ?_, ?_⟩
      · intro hpos
        rcases hls2 hpos with ⟨hlt, _⟩ | ⟨_, hre, _⟩
        · exact Or.inl hlt
        · injection hre with h4; cases h4
      · intro rr hrr
        cases hrr

/-- The npm scan on a nonexistent root: the callback swallows the nil-entry
case, so the scan succeeds with empty results. -/
theorem run_none_npm (c : Config) (now : Int) :
    ∃ stv, run .npm c now none = some (Except.ok (⟨[], 0⟩ : Results), stv) ∧
      stv.results = (⟨[], 0⟩ : Results) ∧ stv.events = [Event.rootInvalid] := by
  refine ⟨vDebug .npm c (emit st0 .rootInvalid)
    ⟨"ERROR!", c.fromDir.data, "PATH is INVALID"⟩, ?_, ?_, ?_⟩
  · show some (Except.ok (vDebug .npm c (emit st0 .rootInvalid)
      ⟨"ERROR!", c.fromDir.data, "PATH is INVALID"⟩).results.sort,
      vDebug .npm c (emit st0 .rootInvalid)
        ⟨"ERROR!", c.fromDir.data, "PATH is INVALID"⟩) = _
    rw [vDebug_results, emit_results]
    rfl
  · rw [vDebug_results, emit_results]
    rfl
  · rw [vDebug_events, emit_events]
    rfl

/-- C1: for every folder accepted into the result set by the scan (`run`,
both variants), the computed age in days is at least `Config.daysAgo` and
the computed size in MB is at least `Config.mbGreater`. -/
theorem c1_accepted_meet_thresholds (v : Variant) (c : Config) (now : Int)
    (root : Option Entry) (res : Except GoErr Results) (st : St) (rr : Results)
    (h : run v c now root = some (res, st)) (hres : res = Except.ok rr) :
    ∀ fo ∈ rr.folders, c.daysAgo ≤ fo.modDaysAgo ∧ c.mbGreater ≤ fo.sizeMb := by
  subst hres
  cases root with
  | none =>
    cases v with
    | npm =>
      obtain ⟨stv, heq, _, _⟩ := run_none_npm c now
      rw [heq] at h
      injection h with h2
      injection h2 with h3 h4
      injection h3 with h5
      rw [← h5]
      intro fo hfo
      cases hfo
    | p000 => cases h
  | some root =>
    obtain ⟨hf, _, hg, _, _, hok⟩ := run_spec v c now root _ st h
    have hrr : rr = st.results.sort := hok rr rfl
    subst hrr
    intro fo hfo
    have hfo2 : fo ∈ st.results.folders :=
      (List.perm_insertionSort sizeGeR st.results.folders).mem_iff.mp hfo
    rw [hf] at hfo2
    obtain ⟨q, a, s, hmem⟩ := mem_acceptedOf hfo2
    obtain ⟨hcand, _, _⟩ := hg _ hmem
    obtain ⟨_, hacc, _, _⟩ := hcand q a s (some fo) rfl
    obtain ⟨h1, h2, h3, _, _⟩ := hacc fo rfl
    exact ⟨by rw [h3]; exact h1, h2⟩

/-- Witness for C1: the concrete scan of `tAccept` accepts one folder and
both thresholds hold for it. -/
theorem c1_witness :
    run .npm cfgStd nowT (some tAccept) = some (Except.ok ⟨[fAccept], 60⟩, stAccept) ∧
    ∀ fo ∈ (⟨[fAccept], 60⟩ : Results).folders,
      cfgStd.daysAgo ≤ fo.modDaysAgo ∧ cfgStd.mbGreater ≤ fo.sizeMb :=
  ⟨by decide, c1_accepted_meet_thresholds .npm cfgStd nowT (some tAccept) _ stAccept _
    (by decide) rfl⟩

/-- C9: `totalSizeMb` always equals the sum of the folder sizes:
`Results.add` preserves the equality, `Results.sort` changes neither side,
and the invariant holds for the walk state and the returned results of
every scan. -/
theorem c9_totalSize_invariant :
    (∀ (rs : Results) (fo : Folder), rs.totalSizeMb = sumMb rs.folders →
        (rs.add fo).totalSizeMb = sumMb (rs.add fo).folders) ∧
    (∀ rs : Results, rs.sort.totalSizeMb = rs.totalSizeMb ∧
        sumMb rs.sort.folders = sumMb rs.folders) ∧
    (∀ (v : Variant) (c : Config) (now : Int) (root : Option Entry)
        (res : Except GoErr Results) (st : St),
      run v c now root = some (res, st) →
        st.results.totalSizeMb = sumMb st.results.folders ∧
        ∀ rr, res = Except.ok rr → rr.totalSizeMb = sumMb rr.folders) := by
  have hsort : ∀ rs : Results, rs.sort.totalSizeMb = rs.totalSizeMb ∧
      sumMb rs.sort.folders = sumMb rs.folders := by
    intro rs
    refine ⟨rfl, ?_⟩
    show sumMb (List.insertionSort sizeGeR rs.folders) = sumMb rs.folders
    unfold sumMb
    exact ((List.perm_insertionSort sizeGeR rs.folders).map Folder.sizeMb).sum_eq
  refine ⟨?_, hsort, ?_⟩
  · intro rs fo hr
    show rs.totalSizeMb + fo.sizeMb = sumMb (rs.folders ++ [fo])
    rw [sumMb_append, hr]
    simp [sumMb]
  · intro v c now root res st h
    cases root with
    | none =>
      cases v with
      | npm =>
        obtain ⟨stv, heq, hres2, _⟩ := run_none_npm c now
        rw [heq] at h
        injection h with h2
        injection h2 with h3 h4
        subst h4
        refine ⟨by rw [hres2]; rfl, ?_⟩
        intro rr hrr
        rw [← h3] at hrr
        injection hrr with h5
        rw [← h5]
        rfl
      | p000 => cases h
    | some root =>
      obtain ⟨hf, ht, _, _, _, hok⟩ := run_spec v c now root _ st h
      refine ⟨by rw [ht, hf], ?_⟩
      intro rr hrr
      rw [hok rr hrr]
      rw [(hsort st.results).1, (hsort st.results).2, ht, hf]

/-- Witness for C9: the invariant evaluated on the concrete p000 scan of
`tAccept`. -/
theorem c9_witness :
    run .p000 cfgStd nowT (some tAccept) = some (Except.ok ⟨[fAccept], 60⟩, stAccept) ∧
    (stAccept.results.totalSizeMb = sumMb stAccept.results.folders ∧
      ∀ rr, (Except.ok (⟨[fAccept], 60⟩ : Results) : Except GoErr Results) = Except.ok rr →
        rr.totalSizeMb = sumMb rr.folders) :=
  ⟨by decide, c9_totalSize_invariant.2.2 .p000 cfgStd nowT (some tAccept) _ stAccept (by decide)⟩

/-- C5: a successful scan returns the folders sorted nonincreasingly by
`sizeMb`, and the sorted sequence is a permutation of the accepted folders
(in acceptance order, as recorded in the trace). -/
theorem c5_results_sorted (v : Variant) (c : Config) (now : Int)
    (root : Option Entry) (res : Except GoErr Results) (st : St) (rr : Results)
    (h : run v c now root = some (res, st)) (hres : res = Except.ok rr) :
    List.Chain' (fun a b => b.sizeMb ≤ a.sizeMb) rr.folders ∧
    rr.folders.Perm (acceptedOf st.events) := by
  subst hres
  cases root with
  | none =>
    cases v with
    | npm =>
      obtain ⟨stv, heq, _, hev⟩ := run_none_npm c now
      rw [heq] at h
      injection h with h2
      injection h2 with h3 h4
      injection h3 with h5
      subst h4
      rw [← h5, hev]
      exact ⟨List.chain'_nil, List.Perm.refl _⟩
    | p000 => cases h
  | some root =>
    obtain ⟨hf, _, _, _, _, hok⟩ := run_spec v c now root _ st h
    have hrr : rr = st.results.sort := hok rr rfl
    subst hrr
    constructor
    · exact (List.sorted_insertionSort sizeGeR st.results.folders).chain'
    · rw [← hf]
      exact List.perm_insertionSort sizeGeR st.results.folders

/-- Witness for C5: the concrete scan of `tTwo` returns the two folders in
descending size order, a permutation of the acceptance order. -/
theorem c5_witness :
    run .npm cfgStd nowT (some tTwo) = some (Except.ok ⟨[fTwo2, fTwo1], 130⟩, stTwoStd) ∧
    (List.Chain' (fun a b => b.sizeMb ≤ a.sizeMb) (⟨[fTwo2, fTwo1], 130⟩ : Results).folders ∧
      (⟨[fTwo2, fTwo1], 130⟩ : Results).folders.Perm (acceptedOf stTwoStd.events)) :=
  ⟨by decide, c5_results_sorted .npm cfgStd nowT (some tTwo) _ stTwoStd _ (by decide) rfl⟩

/-- C3 (amended: requires `Config.limit ≥ 1`): the result count never
exceeds the limit — for the final state, every trace prefix, and the
returned results — and when an acceptance makes the count reach the limit
the walk stops at that very event and the scan still succeeds. -/
theorem c3_limit_cap (v : Variant) (c : Config) (now : Int)
    (root : Option Entry) (res : Except GoErr Results) (st : St)
    (hpos : 0 < c.limit) (h : run v c now root = some (res, st)) :
    ((st.results.folders.length : Int) ≤ c.limit) ∧
    (∀ pre suf, st.events = pre ++ suf → ((acceptedOf pre).length : Int) ≤ c.limit) ∧
    (∀ rr, res = Except.ok rr → (rr.folders.length : Int) ≤ c.limit) ∧
    ((st.results.folders.length : Int) = c.limit →
      (∃ q a s fo, st.events.getLast? = some (Event.candidateEval q a s (some fo))) ∧
      ∃ rr, res = Except.ok rr) := by
  cases root with
  | none =>
    cases v with
    | npm =>
      obtain ⟨stv, heq, hres2, hev⟩ := run_none_npm c now
      rw [heq] at h
      injection h with h2
      injection h2 with h3 h4
      subst h4
      refine ⟨by rw [hres2]; simpa using le_of_lt hpos, ?_, ?_, ?_⟩
      · intro pre suf hpre
        rw [hev] at hpre
        have h5 : acceptedOf pre ++ acceptedOf suf = acceptedOf [Event.rootInvalid] := by
          rw [← acceptedOf_append, ← hpre]
        have h6 : acceptedOf pre = [] := (List.append_eq_nil.mp (by simpa [acceptedOf] using h5)).1
        rw [h6]
        simpa using le_of_lt hpos
      · intro rr hrr
        rw [← h3] at hrr
        injection hrr with h5
        rw [← h5]
        simpa using le_of_lt hpos
      · intro hcontra
        rw [hres2] at hcontra
        simp only [List.length_nil, Nat.cast_zero] at hcontra
        exact (by omega : False).elim
    | p000 => cases h
  | some root =>
    obtain ⟨hf, _, _, _, hl, hok⟩ := run_spec v c now root _ st h
    have hpre : ∀ pre suf, st.events = pre ++ suf →
        ((acceptedOf pre).length : Int) ≤ (st.results.folders.length : Int) := by
      intro pre suf hpre
      rw [hf, hpre, acceptedOf_append]
      simp
    have hrrlen : ∀ rr, res = Except.ok rr →
        rr.folders.length = st.results.folders.length := by
      intro rr hrr
      rw [hok rr hrr]
      exact (List.perm_insertionSort sizeGeR st.results.folders).length_eq
    rcases hl hpos with hlt | ⟨heqq, hlast, hresok⟩
    · refine ⟨le_of_lt hlt, fun pre suf hp => le_trans (hpre pre suf hp) (le_of_lt hlt),
        fun rr hrr => by rw [hrrlen rr hrr]; exact le_of_lt hlt, ?_⟩
      intro heq2
      exact absurd heq2 (by omega)
    · refine ⟨le_of_eq heqq, fun pre suf hp => le_trans (hpre pre suf hp) (le_of_eq heqq),
        fun rr hrr => by rw [hrrlen rr hrr]; exact le_of_eq heqq, ?_⟩
      intro _
      exact ⟨hlast, st.results.sort, hresok⟩

/-- Witness for C3: with `limit = 1` and two qualifying folders the scan
stops right at the first acceptance and still succeeds. -/
theorem c3_witness :
    (0 < cfgOne.limit ∧
      run .npm cfgOne nowT (some tTwo) = some (Except.ok ⟨[fTwo1], 60⟩, stTwoOne)) ∧
    (((stTwoOne.results.folders.length : Int) ≤ cfgOne.limit) ∧
      (∀ pre suf, stTwoOne.events = pre ++ suf →
        ((acceptedOf pre).length : Int) ≤ cfgOne.limit) ∧
      (∀ rr, (Except.ok (⟨[fTwo1], 60⟩ : Results) : Except GoErr Results) = Except.ok rr →
        (rr.folders.length : Int) ≤ cfgOne.limit) ∧
      (((stTwoOne.results.folders.length : Int) = cfgOne.limit →
        (∃ q a s fo, stTwoOne.events.getLast? = some (Event.candidateEval q a s (some fo))) ∧
        ∃ rr, (Except.ok (⟨[fTwo1], 60⟩ : Results) : Except GoErr Results) = Except.ok rr))) :=
  ⟨⟨by decide, by decide⟩,
    c3_limit_cap .npm cfgOne nowT (some tTwo) _ stTwoOne (by decide) (by decide)⟩

/-- C3 counterexample: with `Config.limit = 0` the scan accepts a folder and
the claimed invariant `count ≤ limit` fails (the equality check `len ==
limit` never fires, so the walk never stops). -/
theorem c3_counterexample :
    run .npm cfgL0 nowT (some tAccept) = some (Except.ok ⟨[fAccept], 60⟩, stAccept) ∧
    ¬ ((stAccept.results.folders.length : Int) ≤ cfgL0.limit) := by
  constructor
  · decide
  · decide

/-- C7: a candidate whose age is below `Config.daysAgo` is rejected without
its size ever being computed (the trace records no `folderSizeMb` call and
no acceptance for that evaluation). -/
theorem c7_fresh_short_circuit (v : Variant) (c : Config) (now : Int)
    (root : Option Entry) (res : Except GoErr Results) (st : St)
    (h : run v c now root = some (res, st)) :
    ∀ q a s f, Event.candidateEval q a s f ∈ st.events → a < c.daysAgo →
      s = none ∧ f = none := by
  cases root with
  | none =>
    cases v with
    | npm =>
      obtain ⟨stv, heq, _, hev⟩ := run_none_npm c now
      rw [heq] at h
      injection h with h2
      injection h2 with h3 h4
      subst h4
      intro q a s f hmem
      rw [hev] at hmem
      rcases List.mem_singleton.mp hmem with h5
      cases h5
    | p000 => cases h
  | some root =>
    obtain ⟨_, _, hg, _, _, _⟩ := run_spec v c now root _ st h
    intro q a s f hmem hlt
    obtain ⟨hcand, _, _⟩ := hg _ hmem
    obtain ⟨hshort, _, _, _⟩ := hcand q a s f rfl
    exact hshort hlt

/-- Witness for C7: in the concrete scan of `tFresh` the candidate aged 0
days is recorded with no size computation and no acceptance. -/
theorem c7_witness :
    (run .npm cfgStd nowT (some tFresh) = some (Except.ok ⟨[], 0⟩, stFresh) ∧
      Event.candidateEval ["proj", "node_modules"] 0 none none ∈ stFresh.events ∧
      (0 : Int) < cfgStd.daysAgo) ∧
    ((none : Option (Except GoErr Int)) = none ∧ (none : Option Folder) = none) :=
  ⟨⟨by decide, by decide, by decide⟩,
    c7_fresh_short_circuit .npm cfgStd nowT (some tFresh) (Except.ok ⟨[], 0⟩) stFresh
      (by decide) ["proj", "node_modules"] 0 none none (by decide) (by decide)⟩

/-- C8: a metric-computation failure aborts the whole scan at once: no
trace entry follows the failing one and `run` returns the I/O error (and,
by its return type, no result set, discarding all earlier acceptances). -/
theorem c8_metric_error_aborts (v : Variant) (c : Config) (now : Int)
    (root : Entry) (res : Except GoErr Results) (st : St)
    (h : run v c now (some root) = some (res, st)) :
    ∀ pre ev suf, st.events = pre ++ ev :: suf → evFailB ev = true →
      suf = [] ∧ res = Except.error GoErr.ioErr := by
  obtain ⟨_, _, _, hfs, _, _⟩ := run_spec v c now root _ st h
  intro pre ev suf heq hfail
  rcases List.eq_nil_or_concat suf with rfl | ⟨s2, x, rfl⟩
  · refine ⟨rfl, ?_⟩
    refine hfs.2 ev ?_ hfail
    rw [heq]
    exact List.getLast?_concat _
  · exfalso
    have hev : ev ∈ st.events.dropLast := by
      rw [heq]
      have h2 : pre ++ ev :: s2.concat x = (pre ++ ev :: s2) ++ [x] := by simp
      rw [h2, List.dropLast_concat]
      simp
    exact absurd (hfs.1 ev hev) (by simp [hfail])

/-- Witness for C8: the concrete scan of `tDiscard` accepts one folder,
then fails while sizing the second candidate; the failing entry ends the
trace and the scan returns the error, discarding the earlier acceptance. -/
theorem c8_witness :
    (run .npm cfgStd nowT (some tDiscard) = some (Except.error GoErr.ioErr, stDiscard) ∧
      stDiscard.events =
        [Event.visited [], Event.visited ["proj1"], Event.visited ["proj1", "node_modules"],
         Event.candidateEval ["proj1", "node_modules"] 10 (some (Except.ok 60)) (some fDiscard),
         Event.visited ["proj2"], Event.visited ["proj2", "node_modules"]] ++
          Event.candidateEval ["proj2", "node_modules"] 10 (some (Except.error .ioErr)) none
            :: [] ∧
      evFailB (Event.candidateEval ["proj2", "node_modules"] 10
        (some (Except.error .ioErr)) none) = true) ∧
    (([] : List Event) = [] ∧
      (Except.error GoErr.ioErr : Except GoErr Results) = Except.error GoErr.ioErr) :=
  ⟨⟨by decide, by decide, by decide⟩,
    c8_metric_error_aborts .npm cfgStd nowT tDiscard (Except.error GoErr.ioErr) stDiscard
      (by decide)
      [Event.visited [], Event.visited ["proj1"], Event.visited ["proj1", "node_modules"],
       Event.candidateEval ["proj1", "node_modules"] 10 (some (Except.ok 60)) (some fDiscard),
       Event.visited ["proj2"], Event.visited ["proj2", "node_modules"]]
      (Event.candidateEval ["proj2", "node_modules"] 10 (some (Except.error .ioErr)) none)
      [] (by decide) (by decide)⟩

/-- An error returned by a scan over an existing root is always the I/O
error (the `reachedMax` sentinel is filtered out as success). -/
theorem run_error_ioErr (v : Variant) (c : Config) (now : Int) (root : Entry)
    (res : Except GoErr Results) (st : St) (er : GoErr)
    (h : run v c now (some root) = some (res, st)) (hres : res = Except.error er) :
    er = GoErr.ioErr := by
  subst hres
  rw [show run v c now (some root) = (match walkEntry v c now [] none root st0 with
    | (st, .fail er) =>
      if er == .reachedMax then some (.ok st.results.sort, st)
      else some (.error er, st)
    | (st, _) => some (.ok st.results.sort, st)) from rfl] at h
  rcases hw : walkEntry v c now [] none root st0 with ⟨st2, ret⟩
  rw [hw] at h
  cases ret with
  | done =>
    simp only [] at h
    injection h with h2
    injection h2 with h3 _
    cases h3
  | skipRest =>
    simp only [] at h
    injection h with h2
    injection h2 with h3 _
    cases h3
  | fail er2 =>
    cases er2 with
    | reachedMax =>
      simp only [] at h
      rw [if_pos (by rfl)] at h
      injection h with h2
      injection h2 with h3 _
      cases h3
    | ioErr =>
      simp only [] at h
      rw [if_neg (by simp)] at h
      injection h with h2
      injection h2 with h3 _
      injection h3 with h4
      rw [← h4]

/-- C2 (amended): the two sources compute the candidate age differently.
In `part_000` the age equals `latestModifiedFile` of the candidate's
parent: the number of whole days since the maximum modification timestamp
among the non-directory entries found by walking the parent, where nested
`node_modules` folders are skipped.  In `npmcleaner.go` the age equals the
number of whole days since the candidate directory's own modification
timestamp (its `latestModifiedFile` call is commented out). -/
theorem c2_age_source (c : Config) (now : Int) (root : Entry)
    (res : Except GoErr Results) (st : St) :
    (run .npm c now (some root) = some (res, st) →
      ∀ q a s f, Event.candidateEval q a s f ∈ st.events →
        ∃ ce, At root q ce ∧ ce.meta.infoOk = true ∧
          a = daysSince now ce.meta.modTime) ∧
    (run .p000 c now (some root) = some (res, st) →
      ∀ q a s f, Event.candidateEval q a s f ∈ st.events →
        ∃ pp nm pe, q = pp ++ [nm] ∧ At root pp pe ∧
          (visFiles pe).all (fun m => m.infoOk) = true ∧
          a = daysSince now (maxModTime pe)) := by
  constructor
  · intro h q a s f hmem
    obtain ⟨_, _, hg, _, _, _⟩ := run_spec .npm c now root _ st h
    obtain ⟨hcand, _, _⟩ := hg _ hmem
    obtain ⟨_, _, _, hAge⟩ := hcand q a s f rfl
    exact hAge
  · intro h q a s f hmem
    obtain ⟨_, _, hg, _, _, _⟩ := run_spec .p000 c now root _ st h
    obtain ⟨hcand, _, _⟩ := hg _ hmem
    obtain ⟨_, _, _, hAge⟩ := hcand q a s f rfl
    obtain ⟨pp, nm, pe, hq, hAt, hlmf⟩ := hAge
    obtain ⟨hall, ha⟩ := latestModifiedFile_ok_iff.mp hlmf
    exact ⟨pp, nm, pe, hq, hAt, hall, ha⟩

/-- C2 counterexample: in the npm scan of `tFresh` the candidate's recorded
age is 0 (the `node_modules` directory was just touched), while the
claimed parent-walk computation yields 10 — and the folder is rejected even
though the parent-walk age clears the 7-day threshold. -/
theorem c2_counterexample :
    run .npm cfgStd nowT (some tFresh) = some (Except.ok ⟨[], 0⟩, stFresh) ∧
    Event.candidateEval ["proj", "node_modules"] 0 none none ∈ stFresh.events ∧
    daysSince nowT (maxModTime projFresh) = 10 ∧
    At tFresh ["proj"] projFresh ∧
    (0 : Int) ≠ 10 := by
  refine ⟨by decide, by decide, by decide, ?_, by decide⟩
  have h0 : At tFresh []
      (Entry.dir "r" ⟨0, nowT - 100*dayS, true⟩ true [projFresh]) := At.root _
  exact (At.child h0 (List.mem_singleton.mpr rfl) : At tFresh ([] ++ [projFresh.name]) projFresh)

/-- Witness for C2: on the concrete p000 scan of `tAccept` the recorded age
10 is exactly the parent-walk value. -/
theorem c2_witness :
    (run .p000 cfgStd nowT (some tAccept) = some (Except.ok ⟨[fAccept], 60⟩, stAccept) ∧
      Event.candidateEval ["proj", "node_modules"] 10 (some (Except.ok 60)) (some fAccept)
        ∈ stAccept.events) ∧
    (∃ pp nm pe, (["proj", "node_modules"] : List String) = pp ++ [nm] ∧ At tAccept pp pe ∧
      (visFiles pe).all (fun m => m.infoOk) = true ∧
      (10 : Int) = daysSince nowT (maxModTime pe)) :=
  ⟨⟨by decide, by decide⟩,
    (c2_age_source cfgStd nowT tAccept (Except.ok ⟨[fAccept], 60⟩) stAccept).2 (by decide)
      ["proj", "node_modules"] 10 (some (Except.ok 60)) (some fAccept) (by decide)⟩

/-- C6 (amended: when the exclusion check is enabled for the scan —
`Config.onWindows` in npmcleaner.go, always in part_000): a path matching
an exclusion pattern never appears in the result set, no visited node lies
strictly below a matching path, and the exclusion check precedes the marker
check, so no candidate evaluation happens at a matching path. -/
theorem c6_exclusion_pruning (v : Variant) (c : Config) (now : Int)
    (root : Option Entry) (res : Except GoErr Results) (st : St)
    (h : run v c now root = some (res, st)) (hact : exclActive v c = true) :
    (∀ rr, res = Except.ok rr → ∀ fo ∈ rr.folders, matchesExcl fo.path = false) ∧
    (∀ ev ∈ st.events, ∀ q, evComps ev = some q →
      ∀ p, p <+: q → p ≠ q → matchesExcl (renderPath c.fromDir p) = false) ∧
    (∀ q a s f, Event.candidateEval q a s f ∈ st.events →
      matchesExcl (renderPath c.fromDir q) = false) := by
  cases root with
  | none =>
    cases v with
    | npm =>
      obtain ⟨stv, heq, _, hev⟩ := run_none_npm c now
      rw [heq] at h
      injection h with h2
      injection h2 with h3 h4
      subst h4
      refine ⟨?_, ?_, ?_⟩
      · intro rr hrr fo hfo
        rw [← h3] at hrr
        injection hrr with h5
        rw [← h5] at hfo
        cases hfo
      · intro ev hmem q hq
        rw [hev] at hmem
        rcases List.mem_singleton.mp hmem with rfl
        cases hq
      · intro q a s f hmem
        rw [hev] at hmem
        rcases List.mem_singleton.mp hmem with h5
        cases h5
    | p000 => cases h
  | some root =>
    obtain ⟨hf, _, hg, _, _, hok⟩ := run_spec v c now root _ st h
    refine ⟨?_, ?_, ?_⟩
    · intro rr hrr fo hfo
      rw [hok rr hrr] at hfo
      have hfo2 : fo ∈ st.results.folders :=
        (List.perm_insertionSort sizeGeR st.results.folders).mem_iff.mp hfo
      rw [hf] at hfo2
      obtain ⟨q, a, s, hmem⟩ := mem_acceptedOf hfo2
      obtain ⟨hcand, _, _⟩ := hg _ hmem
      obtain ⟨_, hacc, hnm, _⟩ := hcand q a s (some fo) rfl
      obtain ⟨_, _, _, _, hpath⟩ := hacc fo rfl
      rw [hpath]
      exact hnm hact
    · intro ev hmem q hq p hp hne
      obtain ⟨_, hctxEv, _⟩ := hg _ hmem
      exact hctxEv hact q hq p hp hne
    · intro q a s f hmem
      obtain ⟨hcand, _, _⟩ := hg _ hmem
      exact (hcand q a s f rfl).2.2.1 hact

/-- C6 counterexample: with the exclusion check disabled (npmcleaner.go off
Windows) a marker folder under a hidden dot-directory — whose path matches
an exclusion pattern — is visited and accepted into the result set. -/
theorem c6_counterexample :
    run .npm cfgStd nowT (some tHidden) = some (Except.ok resHidden, stHidden) ∧
    exclActive .npm cfgStd = false ∧
    fHidden ∈ resHidden.folders ∧
    matchesExcl fHidden.path = true ∧
    Event.visited [".cfg", "node_modules"] ∈ stHidden.events := by
  refine ⟨by decide, by decide, by decide, by decide, by decide⟩

/-- Witness for C6: on the Windows-configured scan of `tHidden` the
exclusion machinery prunes the matching path. -/
theorem c6_witness :
    (run .npm cfgWin nowT (some tHidden) = some (Except.ok ⟨[], 0⟩, stHiddenWin) ∧
      exclActive .npm cfgWin = true) ∧
    ((∀ rr, (Except.ok (⟨[], 0⟩ : Results) : Except GoErr Results) = Except.ok rr →
        ∀ fo ∈ rr.folders, matchesExcl fo.path = false) ∧
      (∀ ev ∈ stHiddenWin.events, ∀ q, evComps ev = some q →
        ∀ p, p <+: q → p ≠ q → matchesExcl (renderPath cfgWin.fromDir p) = false) ∧
      (∀ q a s f, Event.candidateEval q a s f ∈ stHiddenWin.events →
        matchesExcl (renderPath cfgWin.fromDir q) = false)) :=
  ⟨⟨by decide, by decide⟩, c6_exclusion_pruning .npm cfgWin nowT (some tHidden)
      (Except.ok ⟨[], 0⟩) stHiddenWin (by decide) (by decide)⟩

/-- C4 (amended): errors surfaced by the callback's own returns (a failing
candidate `Info()` or metric walk) are fatal — `run` returns the I/O error,
no result set, and `main` exits 1 — but a nonexistent root is not fatal:
npmcleaner.go's callback swallows it and the scan succeeds with empty
results and exit code 0, part_000's callback dereferences the nil entry
(a panic, modelled as `none`), and a mid-walk directory read error is
reported to a callback that ignores its error argument, so the scan
continues and can still return results. -/
theorem c4_error_behavior :
    (∀ (c : Config) (now : Int), ∃ stv,
        run .npm c now none = some (Except.ok (⟨[], 0⟩ : Results), stv) ∧
        mainExitCode (Except.ok (⟨[], 0⟩ : Results)) = 0) ∧
    (∀ (c : Config) (now : Int), run .p000 c now none = none) ∧
    (run .npm cfgStd nowT (some tReadErr) = some (Except.ok resReadErr, stReadErr) ∧
      resReadErr.folders.length = 1) ∧
    (∀ (v : Variant) (c : Config) (now : Int) (root : Entry)
        (res : Except GoErr Results) (st : St) (er : GoErr),
      run v c now (some root) = some (res, st) → res = Except.error er →
        er = GoErr.ioErr ∧ mainExitCode res = 1) := by
  refine ⟨?_, ?_, ⟨by decide, by decide⟩, ?_⟩
  · intro c now
    obtain ⟨stv, heq, _, _⟩ := run_none_npm c now
    exact ⟨stv, heq, rfl⟩
  · intro c now
    rfl
  · intro v c now root res st er h hres
    refine ⟨run_error_ioErr v c now root res st er h hres, ?_⟩
    rw [hres]
    rfl

/-- C4 counterexample: a nonexistent root is not a fatal error — the npm
scan returns success with empty results (exit code 0, "No results found"),
and the p000 scan dereferences a nil entry instead of returning an error. -/
theorem c4_counterexample :
    run .npm cfgStd nowT none = some (Except.ok (⟨[], 0⟩ : Results), stRootInvalid) ∧
    mainExitCode (Except.ok (⟨[], 0⟩ : Results)) = 0 ∧
    run .p000 cfgStd nowT none = none := by
  refine ⟨by decide, by decide, by decide⟩

/-- Witness for C4: the scan of `tInfoErr` hits a failing `Info()` call on
the candidate and aborts with the I/O error and exit code 1. -/
theorem c4_witness :
    run .npm cfgStd nowT (some tInfoErr) = some (Except.error GoErr.ioErr, stInfoErr) ∧
    (GoErr.ioErr = GoErr.ioErr ∧ mainExitCode (Except.error GoErr.ioErr) = 1) :=
  ⟨by decide, c4_error_behavior.2.2.2 .npm cfgStd nowT tInfoErr (Except.error GoErr.ioErr)
      stInfoErr GoErr.ioErr (by decide) rfl⟩

/-- C10: npmcleaner.go applies the exclusion patterns only when
`Config.onWindows` is set, which `platformSetup` enables exactly when the
runtime OS is windows; with `onWindows` unset nothing is ever pruned by an
exclusion pattern, and a marker folder under a hidden dot-directory is
still evaluated and accepted; in part_000 the exclusion check is
unconditional. -/
theorem c10_windows_gating :
    (∀ goos, platformSetupOnWindows goos = true ↔ goos = "windows") ∧
    (∀ (c : Config) (now : Int) (root : Option Entry) (res : Except GoErr Results) (st : St),
      c.onWindows = false → run .npm c now root = some (res, st) →
        ∀ q, Event.pruned q ∉ st.events) ∧
    (run .npm cfgStd nowT (some tHidden) = some (Except.ok resHidden, stHidden) ∧
      cfgStd.onWindows = false ∧ fHidden ∈ resHidden.folders ∧
      matchesExcl fHidden.path = true) ∧
    (∀ (c : Config) (now : Int) (root : Entry) (res : Except GoErr Results) (st : St),
      run .p000 c now (some root) = some (res, st) →
        ∀ ev ∈ st.events, ∀ q, evComps ev = some q →
          ∀ p, p <+: q → p ≠ q → matchesExcl (renderPath c.fromDir p) = false) := by
  refine ⟨?_, ?_, ⟨by decide, by decide, by decide, by decide⟩, ?_⟩
  · intro goos
    exact beq_iff_eq
  · intro c now root res st hwin h q hmem
    cases root with
    | none =>
      obtain ⟨stv, heq, _, hev⟩ := run_none_npm c now
      rw [heq] at h
      injection h with h2
      injection h2 with _ h4
      subst h4
      rw [hev] at hmem
      rcases List.mem_singleton.mp hmem with h5
      cases h5
    | some root =>
      obtain ⟨_, _, hg, _, _, _⟩ := run_spec .npm c now root _ st h
      exact absurd rfl ((hg _ hmem).2.2 hwin q)
  · intro c now root res st h ev hmem q hq p hp hne
    obtain ⟨_, _, hg, _, _, _⟩ := run_spec .p000 c now root _ st h
    exact (hg ev hmem).2.1 rfl q hq p hp hne

/-- Witness for C10: on the concrete non-Windows scan of `tHidden` no
pruning event occurs. -/
theorem c10_witness :
    (cfgStd.onWindows = false ∧
      run .npm cfgStd nowT (some tHidden) = some (Except.ok resHidden, stHidden)) ∧
    (∀ q, Event.pruned q ∉ stHidden.events) :=
  ⟨⟨by decide, by decide⟩, c10_windows_gating.2.1 cfgStd nowT (some tHidden)
      (Except.ok resHidden) stHidden (by decide) (by decide)⟩
